import Mathlib

/-!
# Verification of the LightRAG `AsyncTaskManager`

A shallow embedding of `src/async_task_manager_improved.py` (the priority-aware,
bounded-concurrency task scheduler) together with proofs about it.

Modelling conventions:
* wall-clock time is a discrete `Nat` tick counter (one tick per observable event);
* `asyncio` suspension and scheduling nondeterminism is modelled by a small-step
  transition relation `Step` on the manager state `MState`;
* task bodies are abstracted by their observable behaviour (`MBody`: a duration in
  ticks and either a returned value or a raised exception message);
* fields marked "ghost" exist only for specification purposes and are not part of
  the Python data; they record history (e.g. whether a record has ever run).
-/

namespace AsyncTaskMgr

/-- The `TaskStatus` enum (async_task_manager_improved.py lines 77-84). -/
inductive MStatus
  | pending
  | running
  | completed
  | failed
  | cancelled
  | timeout
deriving DecidableEq, Repr

/-- The terminal-state test used at lines 337, 349 and 533:
`[COMPLETED, FAILED, CANCELLED, TIMEOUT]`. -/
def MStatus.isTerminal : MStatus → Bool
  | .completed => true
  | .failed => true
  | .cancelled => true
  | .timeout => true
  | _ => false

/-- The `TaskInfo` dataclass (lines 87-102).  Timestamps are tick counts; `timeout`
mirrors the Python `Optional[float]` (a value of `some 0` is the Python `0.0`,
which is falsy).  `everRan` and `ranCur` are ghost fields: `everRan` is set when
an execution attempt starts and never cleared; `ranCur` is set at the same
moment but cleared when the record is reset to Pending for a retry. -/
structure MTaskInfo where
  task_id : String
  priority : Nat
  status : MStatus := .pending
  created_at : Nat
  started_at : Option Nat := none
  completed_at : Option Nat := none
  error_message : Option String := none
  retry_count : Nat := 0
  max_retries : Nat := 3
  timeout : Option Nat := none
  task_type : String := "unknown"
  result : Option Nat := none
  everRan : Bool := false
  ranCur : Bool := false
deriving DecidableEq, Repr

/-- The `TaskInfo(...)` construction in `submit_task` (lines 236-243). -/
def mkInfo (id : String) (prio : Nat) (now : Nat) (tmo : Option Nat) (mr : Nat) : MTaskInfo :=
  { task_id := id, priority := prio, created_at := now, timeout := tmo, max_retries := mr }

/-- Outcome of running a task body: a returned value or a raised exception. -/
inductive BodyRes
  | ok (v : Nat)
  | raises (msg : String)
deriving DecidableEq, Repr

/-- Observable behaviour of one submitted task body: how many ticks it runs and
whether it returns a value or raises (with the exception's message). -/
structure MBody where
  duration : Nat
  result : BodyRes
deriving DecidableEq, Repr

/-- A body that always raises `msg`, immediately. -/
def failBody (msg : String) : MBody := { duration := 0, result := .raises msg }

/-- The timeout error message of line 489: `f"任务执行超时 ({task_info.timeout}s)"`. -/
def timeoutMessage (t : Nat) : String := "任务执行超时 (" ++ toString t ++ "s)"

/-- The record update performed when a failed task is re-queued (lines 496-511):
increment `retry_count`, record the error, then reset status to Pending and clear
`started_at`/`completed_at`.  `ranCur` is ghost bookkeeping. -/
def retryReset (ti : MTaskInfo) (msg : String) : MTaskInfo :=
  { ti with status := .pending, started_at := none, completed_at := none,
            error_message := some msg, retry_count := ti.retry_count + 1, ranCur := false }

/-- The record update when a failed task has exhausted its retries
(lines 496-499 with the line 505 test false): terminal Failed. -/
def failFinal (ti : MTaskInfo) (msg : String) (now : Nat) : MTaskInfo :=
  { ti with status := .failed, completed_at := some now,
            error_message := some msg, retry_count := ti.retry_count + 1 }

/-- The `except Exception` branch of `_execute_task` (lines 494-525): increment
`retry_count` and record the error; if the incremented `retry_count` is still
below `max_retries`, reset the record to Pending for re-queueing (the returned
flag is `true`), otherwise leave it terminal Failed.  The re-queue `put` itself
blocks rather than raising, so the `except asyncio.QueueFull` at line 520 is not
modelled as a separate outcome. -/
def excFinish (ti : MTaskInfo) (msg : String) (now : Nat) : MTaskInfo × Bool :=
  if ti.retry_count + 1 < ti.max_retries then (retryReset ti msg, true)
  else (failFinal ti msg now, false)

/-- One execution attempt, `_execute_task` lines 453-525: mark Running and stamp
`started_at`, then run the body — wrapped in `asyncio.wait_for` only when the
record's `timeout` is truthy (line 461: `if task_info.timeout:`; the Python value
`0.0` is falsy, so `some 0` runs unwrapped).  `wait_for` raising `TimeoutError`
is modelled by `b.duration > t`.  Returns the updated record and whether it was
re-queued for retry. -/
def executeAttempt (ti : MTaskInfo) (b : MBody) (now : Nat) : MTaskInfo × Bool :=
  let ti := { ti with status := .running, started_at := some now,
                      everRan := true, ranCur := true }
  match ti.timeout with
  | some t =>
    if t ≠ 0 ∧ b.duration > t then
      ({ ti with status := .timeout, completed_at := some (now + t),
                 error_message := some (timeoutMessage t) }, false)
    else
      match b.result with
      | .ok v => ({ ti with status := .completed, result := some v,
                            completed_at := some (now + b.duration) }, false)
      | .raises msg => excFinish ti msg (now + b.duration)
  | none =>
    match b.result with
    | .ok v => ({ ti with status := .completed, result := some v,
                          completed_at := some (now + b.duration) }, false)
    | .raises msg => excFinish ti msg (now + b.duration)

/-- Repeated execution of a task whose body always raises `msg`: iterate
`executeAttempt` as long as the record is re-queued (the worker dequeues the
re-queued handle and runs `_execute_task` again).  Returns the total number of
attempts made together with the final record.  `gas` only bounds the recursion;
`gas = max_retries` always suffices, because every failed attempt increments
`retry_count` and re-queueing requires the incremented count to stay below
`max_retries`. -/
def runAlwaysFail (msg : String) : MTaskInfo → Nat → Nat → Nat × MTaskInfo
  | ti, now, 0 => (1, (executeAttempt ti (failBody msg) now).1)
  | ti, now, gas + 1 =>
    let r := executeAttempt ti (failBody msg) now
    if r.2 then
      let rest := runAlwaysFail msg r.1 (now + 1) gas
      (rest.1 + 1, rest.2)
    else (1, r.1)

/-- A freshly submitted record with `max_retries = m` (id, priority, timeout
are irrelevant to the retry count). -/
def freshInfo (m : Nat) : MTaskInfo := mkInfo "t" 3 0 none m

/-! ## Association lists

The Python registries `_task_info` and `_completed_tasks` are `Dict[str, TaskInfo]`.
We model them as association lists with the three dict operations the source
uses: lookup (`d.get(k)` / `k in d`), assignment (`d[k] = v`) and deletion
(`del d[k]`). -/

/-- Lookup `d.get(k)`: the value stored under the first occurrence of key `k`. -/
def aget {β : Type} (l : List (String × β)) (k : String) : Option β :=
  match l with
  | [] => none
  | (k', v) :: rest => if k' = k then some v else aget rest k

/-- Assignment `d[k] = v`: replace the first binding of `k`, or append a new one. -/
def aset {β : Type} (l : List (String × β)) (k : String) (v : β) : List (String × β) :=
  match l with
  | [] => [(k, v)]
  | (k', v') :: rest => if k' = k then (k, v) :: rest else (k', v') :: aset rest k v

/-- Deletion `del d[k]`: remove the first binding of `k`. -/
def aerase {β : Type} (l : List (String × β)) (k : String) : List (String × β) :=
  match l with
  | [] => []
  | (k', v') :: rest => if k' = k then rest else (k', v') :: aerase rest k

/-- The keys of an association list. -/
def akeys {β : Type} (l : List (String × β)) : List String := l.map Prod.fst

theorem aget_some_mem {β : Type} {l : List (String × β)} {k : String} {v : β}
    (h : aget l k = some v) : (k, v) ∈ l := by
  induction l with
  | nil => simp [aget] at h
  | cons p rest ih =>
    rw [aget] at h
    split at h
    · rename_i hk
      cases p
      simp_all
    · simp [ih h]

theorem aget_isSome_iff_mem {β : Type} {l : List (String × β)} {k : String} :
    (aget l k).isSome = true ↔ k ∈ akeys l := by
  induction l with
  | nil => simp [aget, akeys]
  | cons p rest ih =>
    rw [aget]
    cases p with
    | mk k' v =>
      by_cases hk : k' = k
      · subst hk; simp [akeys]
      · simp only [if_neg hk, akeys, List.map_cons, List.mem_cons]
        rw [ih]
        constructor
        · intro h; exact Or.inr h
        · rintro (h | h)
          · exact absurd h.symm hk
          · exact h

theorem aget_none_iff_not_mem {β : Type} {l : List (String × β)} {k : String} :
    aget l k = none ↔ k ∉ akeys l := by
  rw [← aget_isSome_iff_mem]
  cases aget l k <;> simp

theorem mem_aset {β : Type} {l : List (String × β)} {k : String} {v : β} {p : String × β}
    (h : p ∈ aset l k v) : p = (k, v) ∨ p ∈ l := by
  induction l with
  | nil => simp [aset] at h; simp [h]
  | cons q rest ih =>
    rw [aset] at h
    split at h
    · rcases List.mem_cons.1 h with h | h
      · exact Or.inl h
      · exact Or.inr (List.mem_cons_of_mem _ h)
    · rcases List.mem_cons.1 h with h | h
      · exact Or.inr (h ▸ List.mem_cons_self _ _)
      · rcases ih h with h | h
        · exact Or.inl h
        · exact Or.inr (List.mem_cons_of_mem _ h)

theorem mem_akeys_aset {β : Type} {l : List (String × β)} {k k' : String} {v : β} :
    k' ∈ akeys (aset l k v) ↔ k' = k ∨ k' ∈ akeys l := by
  induction l with
  | nil => simp [aset, akeys]
  | cons q rest ih =>
    cases q with
    | mk q1 q2 =>
      rw [aset]
      by_cases hq : q1 = k
      · rw [if_pos hq]
        subst hq
        simp only [akeys, List.map_cons, List.mem_cons]
        tauto
      · rw [if_neg hq]
        simp only [akeys, List.map_cons, List.mem_cons]
        have ih' : k' ∈ akeys (aset rest k v) ↔ k' = k ∨ k' ∈ akeys rest := ih
        simp only [akeys] at ih'
        rw [ih']
        tauto

theorem nodup_akeys_aset {β : Type} {l : List (String × β)} {k : String} {v : β}
    (h : (akeys l).Nodup) : (akeys (aset l k v)).Nodup := by
  induction l with
  | nil => simp [aset, akeys]
  | cons q rest ih =>
    rw [aset]
    cases q with
    | mk q1 q2 =>
      simp only [akeys, List.map_cons, List.nodup_cons] at h
      split
      · rename_i hq
        simp only [akeys, List.map_cons, List.nodup_cons]
        exact ⟨hq ▸ h.1, h.2⟩
      · rename_i hq
        simp only [akeys, List.map_cons, List.nodup_cons]
        refine ⟨?_, ih h.2⟩
        intro hmem
        have hmem' : q1 ∈ akeys (aset rest k v) := hmem
        rcases mem_akeys_aset.1 hmem' with h1 | h1
        · exact hq h1
        · exact h.1 h1

theorem mem_aset_nodup {β : Type} {l : List (String × β)} {k : String} {v : β} {p : String × β}
    (hnd : (akeys l).Nodup) (h : p ∈ aset l k v) : p = (k, v) ∨ (p ∈ l ∧ p.1 ≠ k) := by
  induction l with
  | nil => simp [aset] at h; simp [h]
  | cons q rest ih =>
    cases q with
    | mk q1 q2 =>
      simp only [akeys, List.map_cons, List.nodup_cons] at hnd
      rw [aset] at h
      split at h
      · rename_i hq
        subst hq
        rcases List.mem_cons.1 h with h | h
        · exact Or.inl h
        · right
          refine ⟨List.mem_cons_of_mem _ h, ?_⟩
          intro hpk
          exact hnd.1 (hpk ▸ List.mem_map_of_mem Prod.fst h)
      · rename_i hq
        rcases List.mem_cons.1 h with h | h
        · subst h
          exact Or.inr ⟨List.mem_cons_self _ _, hq⟩
        · rcases ih hnd.2 h with h | h
          · exact Or.inl h
          · exact Or.inr ⟨List.mem_cons_of_mem _ h.1, h.2⟩

theorem aerase_sublist {β : Type} (l : List (String × β)) (k : String) :
    (aerase l k).Sublist l := by
  induction l with
  | nil => simp [aerase]
  | cons q rest ih =>
    rw [aerase]
    split
    · exact List.sublist_cons_self _ _
    · exact List.Sublist.cons₂ _ ih

theorem mem_aerase {β : Type} {l : List (String × β)} {k : String} {p : String × β}
    (h : p ∈ aerase l k) : p ∈ l := (aerase_sublist l k).mem h

theorem nodup_akeys_aerase {β : Type} {l : List (String × β)} {k : String}
    (h : (akeys l).Nodup) : (akeys (aerase l k)).Nodup :=
  ((aerase_sublist l k).map Prod.fst).nodup h

theorem mem_akeys_aerase {β : Type} {l : List (String × β)} {k k' : String}
    (hnd : (akeys l).Nodup) : k' ∈ akeys (aerase l k) ↔ k' ∈ akeys l ∧ k' ≠ k := by
  induction l with
  | nil => simp [aerase, akeys]
  | cons q rest ih =>
    cases q with
    | mk q1 q2 =>
      simp only [akeys, List.map_cons, List.nodup_cons] at hnd
      rw [aerase]
      split
      · rename_i hq
        subst hq
        simp only [akeys, List.map_cons, List.mem_cons]
        constructor
        · intro h
          refine ⟨Or.inr h, ?_⟩
          intro hk
          exact hnd.1 (hk ▸ h)
        · rintro ⟨h | h, hne⟩
          · exact absurd h hne
          · exact h
      · rename_i hq
        simp only [akeys, List.map_cons, List.mem_cons]
        have ih' := ih hnd.2
        simp only [akeys] at ih'
        rw [ih']
        constructor
        · rintro (h | ⟨h1, h2⟩)
          · subst h
            exact ⟨Or.inl rfl, fun hk => hq hk⟩
          · exact ⟨Or.inr h1, h2⟩
        · rintro ⟨h | h, hne⟩
          · exact Or.inl h
          · exact Or.inr ⟨h, hne⟩

theorem mem_aerase_nodup {β : Type} {l : List (String × β)} {k : String} {p : String × β}
    (hnd : (akeys l).Nodup) (h : p ∈ aerase l k) : p ∈ l ∧ p.1 ≠ k := by
  refine ⟨mem_aerase h, ?_⟩
  have hk : p.1 ∈ akeys (aerase l k) := List.mem_map_of_mem Prod.fst h
  exact ((mem_akeys_aerase hnd).1 hk).2

theorem aget_aset_self {β : Type} (l : List (String × β)) (k : String) (v : β) :
    aget (aset l k v) k = some v := by
  induction l with
  | nil => simp [aset, aget]
  | cons q rest ih =>
    rw [aset]
    split
    · simp [aget]
    · rename_i hq
      rw [aget, if_neg hq]
      exact ih

theorem aget_aset_ne {β : Type} (l : List (String × β)) (k k' : String) (v : β)
    (h : k' ≠ k) : aget (aset l k v) k' = aget l k' := by
  induction l with
  | nil =>
    show aget [(k, v)] k' = none
    rw [aget, if_neg (fun hh => h hh.symm)]
    rfl
  | cons q rest ih =>
    cases q with
    | mk q1 q2 =>
      rw [aset]
      by_cases hq : q1 = k
      · rw [if_pos hq]
        subst hq
        rw [aget, if_neg (fun hh => h hh.symm), aget, if_neg (fun hh => h hh.symm)]
      · rw [if_neg hq, aget, aget]
        split
        · rfl
        · exact ih

theorem aget_aerase_ne {β : Type} (l : List (String × β)) (k k' : String)
    (h : k' ≠ k) (hnd : (akeys l).Nodup) : aget (aerase l k) k' = aget l k' := by
  induction l with
  | nil => simp [aerase]
  | cons q rest ih =>
    cases q with
    | mk q1 q2 =>
      simp only [akeys, List.map_cons, List.nodup_cons] at hnd
      rw [aerase]
      split
      · rename_i hq
        subst hq
        rw [aget, if_neg (fun hh => h hh.symm)]
      · rw [aget, aget]
        split
        · rfl
        · exact ih hnd.2

theorem aget_aerase_self {β : Type} (l : List (String × β)) (k : String)
    (hnd : (akeys l).Nodup) : aget (aerase l k) k = none := by
  rw [aget_none_iff_not_mem]
  intro hmem
  exact ((mem_akeys_aerase hnd).1 hmem).2 rfl

theorem mem_akeys_of_aget {β : Type} {l : List (String × β)} {k : String} {v : β}
    (h : aget l k = some v) : k ∈ akeys l := by
  rw [← aget_isSome_iff_mem, h]
  rfl

/-! ## The priority queue

`_task_queue` is an `asyncio.PriorityQueue` of tuples
`(priority.value, time.time(), task_id, task_wrapper)` (line 250).  The heap
pops the least tuple; tuples are compared lexicographically, so the dequeue key
is `(priority, time)` — the `task_id`/wrapper components only break exact ties,
which cannot occur while enqueue timestamps are distinct (the transition system
stamps every entry with a fresh tick).  We model the queue as the list of its
entries and popping as removing the entry with the least `(priority, time)`
key. -/

structure QEntry where
  priority : Nat
  time : Nat
  task_id : String
deriving DecidableEq, Repr

/-- Strict lexicographic order on the dequeue key `(priority, time)`. -/
def keyLt (a b : QEntry) : Bool :=
  decide (a.priority < b.priority ∨ (a.priority = b.priority ∧ a.time < b.time))

theorem keyLt_irrefl (a : QEntry) : keyLt a a = false := by
  simp [keyLt]

theorem keyLt_asymm {a b : QEntry} (h : keyLt a b = true) : keyLt b a = false := by
  simp only [keyLt, decide_eq_true_eq, decide_eq_false_iff_not] at *
  omega

theorem keyLt_not_lt_trans {a b c : QEntry} (h1 : keyLt b a = false)
    (h2 : keyLt c b = false) : keyLt c a = false := by
  simp only [keyLt, decide_eq_false_iff_not] at *
  omega

/-- Pop the minimal entry under `keyLt` (ties keep the leftmost entry),
returning it with the list of remaining entries. -/
def popMin : List QEntry → Option (QEntry × List QEntry)
  | [] => none
  | e :: rest =>
    match popMin rest with
    | none => some (e, [])
    | some (m, rest') => if keyLt m e then some (m, e :: rest') else some (e, rest)

theorem popMin_none_iff {q : List QEntry} : popMin q = none ↔ q = [] := by
  cases q with
  | nil => simp [popMin]
  | cons e rest =>
    rw [popMin]
    constructor
    · intro h
      split at h <;> simp_all
      split at h <;> simp_all
    · intro h
      simp at h

theorem popMin_mem {q : List QEntry} : ∀ {e : QEntry} {q' : List QEntry},
    popMin q = some (e, q') → e ∈ q := by
  induction q with
  | nil => intro e q' h; simp [popMin] at h
  | cons a rest ih =>
    intro e q' h
    rw [popMin] at h
    cases hm : popMin rest with
    | none =>
      rw [hm] at h
      dsimp only at h
      simp only [Option.some.injEq, Prod.mk.injEq] at h
      obtain ⟨h1, h2⟩ := h
      subst h1
      exact List.mem_cons_self _ _
    | some p =>
      obtain ⟨m, rest'⟩ := p
      rw [hm] at h
      dsimp only at h
      by_cases hlt : keyLt m a = true
      · rw [if_pos hlt] at h
        simp only [Option.some.injEq, Prod.mk.injEq] at h
        obtain ⟨h1, h2⟩ := h
        subst h1
        exact List.mem_cons_of_mem _ (ih hm)
      · rw [if_neg hlt] at h
        simp only [Option.some.injEq, Prod.mk.injEq] at h
        obtain ⟨h1, h2⟩ := h
        subst h1
        exact List.mem_cons_self _ _

/-- The popped entry is minimal: no entry of the original queue is strictly
below it in the `(priority, time)` order. -/
theorem popMin_min {q : List QEntry} : ∀ {e : QEntry} {q' : List QEntry},
    popMin q = some (e, q') → ∀ x ∈ q, keyLt x e = false := by
  induction q with
  | nil => intro e q' h; simp [popMin] at h
  | cons a rest ih =>
    intro e q' h x hx
    rw [popMin] at h
    cases hm : popMin rest with
    | none =>
      rw [hm] at h
      dsimp only at h
      simp only [Option.some.injEq, Prod.mk.injEq] at h
      obtain ⟨h1, h2⟩ := h
      subst h1
      rw [popMin_none_iff.1 hm] at hx
      simp only [List.mem_cons, List.not_mem_nil, or_false] at hx
      subst hx
      exact keyLt_irrefl _
    | some p =>
      obtain ⟨m, rest'⟩ := p
      rw [hm] at h
      dsimp only at h
      by_cases hlt : keyLt m a = true
      · rw [if_pos hlt] at h
        simp only [Option.some.injEq, Prod.mk.injEq] at h
        obtain ⟨h1, h2⟩ := h
        subst h1
        rcases List.mem_cons.1 hx with hx | hx
        · subst hx
          exact keyLt_asymm hlt
        · exact ih hm x hx
      · rw [if_neg hlt] at h
        simp only [Option.some.injEq, Prod.mk.injEq] at h
        obtain ⟨h1, h2⟩ := h
        subst h1
        have hlt' : keyLt m a = false := by
          revert hlt
          cases keyLt m a <;> simp
        rcases List.mem_cons.1 hx with hx | hx
        · subst hx
          exact keyLt_irrefl _
        · exact keyLt_not_lt_trans hlt' (ih hm x hx)

/-- The remaining entries come from the original queue. -/
theorem popMin_rest_subset {q : List QEntry} : ∀ {e : QEntry} {q' : List QEntry},
    popMin q = some (e, q') → ∀ x ∈ q', x ∈ q := by
  induction q with
  | nil => intro e q' h; simp [popMin] at h
  | cons a rest ih =>
    intro e q' h x hx
    rw [popMin] at h
    cases hm : popMin rest with
    | none =>
      rw [hm] at h
      dsimp only at h
      simp only [Option.some.injEq, Prod.mk.injEq] at h
      obtain ⟨h1, h2⟩ := h
      rw [← h2] at hx
      simp at hx
    | some p =>
      obtain ⟨m, rest'⟩ := p
      rw [hm] at h
      dsimp only at h
      by_cases hlt : keyLt m a = true
      · rw [if_pos hlt] at h
        simp only [Option.some.injEq, Prod.mk.injEq] at h
        obtain ⟨h1, h2⟩ := h
        rw [← h2] at hx
        rcases List.mem_cons.1 hx with hx | hx
        · subst hx
          exact List.mem_cons_self _ _
        · exact List.mem_cons_of_mem _ (ih hm x hx)
      · rw [if_neg hlt] at h
        simp only [Option.some.injEq, Prod.mk.injEq] at h
        obtain ⟨h1, h2⟩ := h
        rw [← h2] at hx
        exact List.mem_cons_of_mem _ hx

/-! ## Submission (`submit_task`, lines 199-259)

`submit_task` enqueues with `await self._task_queue.put(...)` (line 250).
`asyncio.Queue.put` *suspends* when the queue is at capacity (`maxsize > 0` and
`qsize() >= maxsize`); `asyncio.QueueFull` is raised only by `put_nowait`, which
`submit_task` never calls — so the `except asyncio.QueueFull` handler at
lines 257-259 (and the `Raises: asyncio.QueueFull` docstring promise at
line 227) can never fire, and a caller submitting to a full queue blocks. -/

inductive SubmitRes
  | ok (task_id : String)
  | queueFull
  | blocked
deriving DecidableEq, Repr

/-- What `submit_task` does to a caller as a function of the current queue size
and `max_queue_size`: returns the task id after enqueueing, or suspends forever
on a full bounded queue.  No input produces `SubmitRes.queueFull`. -/
def submitOutcome (qsize maxsize : Nat) (id : String) : SubmitRes :=
  if 0 < maxsize ∧ maxsize ≤ qsize then .blocked else .ok id

/-! ## Waiting for completion (`wait_for_task`, lines 314-366)

The poll loop sleeps 0.1s per iteration; one model tick = one poll interval, so
at iteration `k` the elapsed time is `k` ticks.  `snap i` is the view
`get_task_status` would return at poll `i` (the registries evolve concurrently).
`cancelAt = some k` delivers `asyncio.CancelledError` during the `k`-th sleep;
the handler's re-fetch then sees the next snapshot `k + 1`. -/

inductive WaitRes
  | ret (ti : MTaskInfo)
  | timeoutFailure
  | unknownTask
  | cancelledRaised
  | polling
deriving DecidableEq, Repr

/-- Python truthiness of the `timeout` argument (line 340: `if timeout and ...`):
`None` and `0` are falsy. -/
def tmoTruthy : Option Nat → Bool
  | none => false
  | some t => decide (t ≠ 0)

/-- The `cancel_task` / `wait_for_task` cancellation marking (lines 278-279,
286-287 and 353-354): set status to Cancelled and stamp `completed_at`. -/
def cancelMark (ti : MTaskInfo) (now : Nat) : MTaskInfo :=
  { ti with status := .cancelled, completed_at := some now }

/-- The poll loop of `wait_for_task(task_id, timeout)` (lines 314-366), unrolled `fuel` times from
poll iteration `k`:
* unknown id raises `ValueError` (line 335) — `.unknownTask`;
* a terminal record is returned (lines 337-338);
* `if timeout and elapsed > timeout` raises `asyncio.TimeoutError`
  (lines 340-341) — note a `timeout` of `0` is falsy and never trips;
* a `CancelledError` during the sleep re-fetches the record: a terminal record
  is returned as-is, a live record is marked Cancelled and returned, and a
  missing record re-raises (lines 343-366);
* otherwise loop.  `.polling` means the loop was still running after `fuel`
  iterations. -/
def waitForTask (snap : Nat → Option MTaskInfo) (tmo : Option Nat)
    (cancelAt : Option Nat) : Nat → Nat → WaitRes
  | 0, _ => .polling
  | fuel + 1, k =>
    match snap k with
    | none => .unknownTask
    | some ti =>
      if ti.status.isTerminal then .ret ti
      else if tmoTruthy tmo = true ∧ k > tmo.getD 0 then .timeoutFailure
      else if cancelAt = some k then
        match snap (k + 1) with
        | none => .cancelledRaised
        | some fti =>
          if fti.status.isTerminal then .ret fti
          else .ret (cancelMark fti (k + 1))
      else waitForTask snap tmo cancelAt fuel (k + 1)

/-- One quiet poll iteration: the record exists and is non-terminal, the caller
timeout has not tripped, and no cancellation is delivered, so the loop just
advances to the next poll. -/
theorem waitForTask_advance {snap : Nat → Option MTaskInfo} {tmo cancelAt : Option Nat}
    {fuel k : Nat} {ti : MTaskInfo}
    (h1 : snap k = some ti) (h2 : ti.status.isTerminal = false)
    (h3 : ¬(tmoTruthy tmo = true ∧ k > tmo.getD 0)) (h4 : cancelAt ≠ some k) :
    waitForTask snap tmo cancelAt (fuel + 1) k = waitForTask snap tmo cancelAt fuel (k + 1) := by
  rw [waitForTask, h1]
  dsimp only
  rw [if_neg (by simp [h2]), if_neg h3, if_neg h4]

/-- Iterating `waitForTask_advance` over `j` quiet iterations. -/
theorem waitForTask_run {snap : Nat → Option MTaskInfo} {tmo cancelAt : Option Nat} :
    ∀ (j k fuel : Nat),
    (∀ i, k ≤ i → i < k + j →
      (∃ ti, snap i = some ti ∧ ti.status.isTerminal = false) ∧
      ¬(tmoTruthy tmo = true ∧ i > tmo.getD 0) ∧ cancelAt ≠ some i) →
    waitForTask snap tmo cancelAt (j + fuel) k = waitForTask snap tmo cancelAt fuel (k + j) := by
  intro j
  induction j with
  | zero =>
    intro k fuel _
    rw [Nat.zero_add, Nat.add_zero]
  | succ j ih =>
    intro k fuel hq
    obtain ⟨⟨ti, hti, hterm⟩, htrip, hcan⟩ := hq k (Nat.le_refl k) (by omega)
    have step : waitForTask snap tmo cancelAt (j + fuel + 1) k
        = waitForTask snap tmo cancelAt (j + fuel) (k + 1) :=
      waitForTask_advance hti hterm htrip hcan
    calc waitForTask snap tmo cancelAt (j + 1 + fuel) k
        = waitForTask snap tmo cancelAt (j + fuel + 1) k := by
          congr 1
          omega
      _ = waitForTask snap tmo cancelAt (j + fuel) (k + 1) := step
      _ = waitForTask snap tmo cancelAt fuel (k + 1 + j) := by
          refine ih (k + 1) fuel ?_
          intro i hi1 hi2
          exact hq i (by omega) (by omega)
      _ = waitForTask snap tmo cancelAt fuel (k + (j + 1)) := by
          congr 1
          omega

/-! ## The manager as a transition system

`MState` collects the mutable state of one `AsyncTaskManager`:
`_task_queue` (as the list of queued entries), the active registry `_task_info`,
the completed registry `_completed_tasks`, the semaphore's free-permit count,
and the set of `_execute_task` invocations currently in flight (each holds one
permit from acquisition in `_worker_loop` until its `finally` releases it).
Ghost fields: `created` (every id ever submitted), `started` (one entry per
body-execution start), `dup` (a submit reused an already-submitted id),
`nextEid` (fresh execution identifiers). -/

/-- One in-flight `_execute_task` invocation. -/
structure Exec where
  eid : Nat
  task_id : String
deriving DecidableEq, Repr

/-- The task ids of the in-flight executions. -/
def execIds (l : List Exec) : List String := l.map Exec.task_id

structure MState where
  time : Nat
  queue : List QEntry
  info : List (String × MTaskInfo)
  completed : List (String × MTaskInfo)
  permits : Nat
  running : List Exec
  nextEid : Nat
  created : List String
  started : List String
  dup : Bool
deriving DecidableEq, Repr

/-- The state right after `__init__` (lines 113-160) with
`max_concurrent_tasks = mc`: empty queue and registries, all permits free. -/
def initState (mc : Nat) : MState :=
  { time := 0, queue := [], info := [], completed := [], permits := mc,
    running := [], nextEid := 0, created := [], started := [], dup := false }

/-- The enqueue of `submit_task` (lines 229-255), assuming the queue has room: build a fresh
`TaskInfo`, store it under `task_id` in `_task_info` (silently replacing any
existing record), and push `(priority, now, task_id, wrapper)` onto the queue.
`created`/`dup` are ghost bookkeeping for id reuse. -/
def submitStep (s : MState) (id : String) (prio : Nat) (tmo : Option Nat) (mr : Nat) : MState :=
  { s with
    time := s.time + 1
    queue := s.queue ++ [⟨prio, s.time, id⟩]
    info := aset s.info id (mkInfo id prio s.time tmo mr)
    created := s.created ++ [id]
    dup := s.dup || decide (id ∈ s.created) }

/-- The worker acquires a permit, pops an entry, and puts it back down without
executing: either the record is already Cancelled (lines 408-412) or the
record is gone from `_task_info` and `_execute_task` returns at once
(lines 447-451).  Net effect: the entry is consumed, the permit released. -/
def skipStep (s : MState) (q' : List QEntry) : MState :=
  { s with time := s.time + 1, queue := q' }

/-- The worker dispatches a popped entry (lines 414-419) and `_execute_task`
starts the attempt (lines 453-456): mark Running, stamp `started_at`, keep the
permit, and record the new in-flight execution.  `started`/ghost fields track
that the task body began running. -/
def startStep (s : MState) (q' : List QEntry) (id : String) (ti : MTaskInfo) : MState :=
  { s with
    time := s.time + 1
    queue := q'
    info := aset s.info id { ti with status := .running, started_at := some s.time,
                                     everRan := true, ranCur := true }
    permits := s.permits - 1
    running := s.running ++ [⟨s.nextEid, id⟩]
    nextEid := s.nextEid + 1
    started := s.started ++ [id] }

/-- The `finally` block of `_execute_task` for a record that has become
terminal (lines 527-539): drop the finished execution, move the record from the
active to the completed registry, and release the permit. -/
def moveState (s : MState) (ex : Exec) (nti : MTaskInfo) : MState :=
  { s with
    time := s.time + 1
    running := s.running.erase ex
    permits := s.permits + 1
    info := aerase s.info ex.task_id
    completed := aset s.completed ex.task_id nti }

/-- An in-flight execution finishes with a normal return (lines 466-474 and the
`finally` block 527-539): Completed, result stored, record moved from active to
completed, permit released. -/
def finishOkStep (s : MState) (ex : Exec) (ti : MTaskInfo) (v : Nat) : MState :=
  moveState s ex
    { ti with status := .completed, result := some v, completed_at := some s.time }

/-- An in-flight execution observes `asyncio.CancelledError` (lines 476-483 and
the `finally` block): terminal Cancelled, moved to completed, permit released. -/
def finishCancelledStep (s : MState) (ex : Exec) (ti : MTaskInfo) : MState :=
  moveState s ex { ti with status := .cancelled, completed_at := some s.time }

/-- An in-flight execution hits `asyncio.TimeoutError` from `wait_for`
(lines 485-492 and the `finally` block): terminal TimedOut with the descriptive
message, no retry, moved to completed, permit released.  Only possible when the
record's `timeout` is truthy (line 461). -/
def finishTimeoutStep (s : MState) (ex : Exec) (ti : MTaskInfo) (t : Nat) : MState :=
  moveState s ex
    { ti with status := .timeout, completed_at := some s.time,
              error_message := some (timeoutMessage t) }

/-- An in-flight execution raises and the incremented `retry_count` is still
below `max_retries` (lines 494-519 and the `finally` block): the record is
reset to Pending and a new queue entry is pushed, keyed with the *current*
time, and the record stays in the active registry.  The permit is released. -/
def finishExcRetryStep (s : MState) (ex : Exec) (ti : MTaskInfo) (msg : String) : MState :=
  { s with
    time := s.time + 1
    running := s.running.erase ex
    permits := s.permits + 1
    info := aset s.info ex.task_id (retryReset ti msg)
    queue := s.queue ++ [⟨ti.priority, s.time, ex.task_id⟩] }

/-- An in-flight execution raises with retries exhausted (lines 494-499,
524-525 and the `finally` block): terminal Failed, moved to completed, permit
released. -/
def finishExcFailStep (s : MState) (ex : Exec) (ti : MTaskInfo) (msg : String) : MState :=
  moveState s ex (failFinal ti msg s.time)

/-- An in-flight execution whose record has vanished from `_task_info` winds
down releasing its permit without touching the registries. -/
def finishDeadStep (s : MState) (ex : Exec) : MState :=
  { s with
    time := s.time + 1
    running := s.running.erase ex
    permits := s.permits + 1 }

/-- The marking of `cancel_task(task_id)` when the id is in the active registry (lines
272-289): mark the record Cancelled in place and stamp `completed_at`.  It is
*not* moved to the completed registry. -/
def cancelStep (s : MState) (id : String) (ti : MTaskInfo) : MState :=
  { s with time := s.time + 1, info := aset s.info id (cancelMark ti s.time) }

/-- The small-step transition relation of the manager.  Each constructor is one
observable event of `submit_task`, `_worker_loop`, `_execute_task` or
`cancel_task`; the guards are the tests the Python code performs.  `asyncio`'s
interleaving freedom is captured by allowing any enabled step to fire. -/
inductive Step : MState → MState → Prop
  | submit (s : MState) (id : String) (prio : Nat) (tmo : Option Nat) (mr : Nat) :
      Step s (submitStep s id prio tmo mr)
  | skipCancelled (s : MState) (e : QEntry) (q' : List QEntry) (ti : MTaskInfo) :
      popMin s.queue = some (e, q') → 0 < s.permits →
      aget s.info e.task_id = some ti → ti.status = .cancelled →
      Step s (skipStep s q')
  | skipDead (s : MState) (e : QEntry) (q' : List QEntry) :
      popMin s.queue = some (e, q') → 0 < s.permits →
      aget s.info e.task_id = none →
      Step s (skipStep s q')
  | start (s : MState) (e : QEntry) (q' : List QEntry) (ti : MTaskInfo) :
      popMin s.queue = some (e, q') → 0 < s.permits →
      aget s.info e.task_id = some ti → ti.status ≠ .cancelled →
      Step s (startStep s q' e.task_id ti)
  | finishOk (s : MState) (ex : Exec) (ti : MTaskInfo) (v : Nat) :
      ex ∈ s.running → aget s.info ex.task_id = some ti →
      Step s (finishOkStep s ex ti v)
  | finishCancelled (s : MState) (ex : Exec) (ti : MTaskInfo) :
      ex ∈ s.running → aget s.info ex.task_id = some ti →
      Step s (finishCancelledStep s ex ti)
  | finishTimeout (s : MState) (ex : Exec) (ti : MTaskInfo) (t : Nat) :
      ex ∈ s.running → aget s.info ex.task_id = some ti →
      ti.timeout = some t → t ≠ 0 →
      Step s (finishTimeoutStep s ex ti t)
  | finishExcRetry (s : MState) (ex : Exec) (ti : MTaskInfo) (msg : String) :
      ex ∈ s.running → aget s.info ex.task_id = some ti →
      ti.retry_count + 1 < ti.max_retries →
      Step s (finishExcRetryStep s ex ti msg)
  | finishExcFail (s : MState) (ex : Exec) (ti : MTaskInfo) (msg : String) :
      ex ∈ s.running → aget s.info ex.task_id = some ti →
      ¬(ti.retry_count + 1 < ti.max_retries) →
      Step s (finishExcFailStep s ex ti msg)
  | finishDead (s : MState) (ex : Exec) :
      ex ∈ s.running → aget s.info ex.task_id = none →
      Step s (finishDeadStep s ex)
  | cancel (s : MState) (id : String) (ti : MTaskInfo) :
      aget s.info id = some ti →
      Step s (cancelStep s id ti)

/-- States reachable from a fresh manager with `mc` concurrency permits. -/
inductive Reach (mc : Nat) : MState → Prop
  | init : Reach mc (initState mc)
  | step {s t : MState} : Reach mc s → Step s t → Reach mc t

/-- Reflexive-transitive closure of `Step` (reachability from a given state). -/
inductive ReachFrom : MState → MState → Prop
  | refl (s : MState) : ReachFrom s s
  | step {s t u : MState} : ReachFrom s t → Step t u → ReachFrom s u

theorem reach_of_reachFrom {mc : Nat} {s t : MState}
    (h : Reach mc s) (hr : ReachFrom s t) : Reach mc t := by
  induction hr with
  | refl => exact h
  | step _ hst ih => exact Reach.step ih hst

/-- The ghost `dup` flag never goes back to `false`. -/
theorem dup_mono {s t : MState} (h : Step s t) (hd : s.dup = true) : t.dup = true := by
  cases h <;> simp_all [submitStep, skipStep, startStep, finishOkStep,
    finishCancelledStep, finishTimeoutStep, finishExcRetryStep, finishExcFailStep,
    finishDeadStep, cancelStep, moveState]

theorem dup_false_of_step {s t : MState} (h : Step s t) (hd : t.dup = false) :
    s.dup = false := by
  by_contra hs
  rw [dup_mono h (by revert hs; cases s.dup <;> simp)] at hd
  simp at hd

theorem mem_execIds_append {l : List Exec} {l2 : List Exec} {k : String}
    (h : k ∈ execIds l) : k ∈ execIds (l ++ l2) := by
  simp only [execIds, List.map_append, List.mem_append]
  exact Or.inl h

theorem execIds_erase {l : List Exec} {ex : Exec} {k : String}
    (hk : k ∈ execIds l) (hne : k ≠ ex.task_id) : k ∈ execIds (l.erase ex) := by
  obtain ⟨y, hy, hyk⟩ := List.mem_map.1 hk
  have hyne : y ≠ ex := fun h => hne (by rw [← hyk, h])
  exact List.mem_map.2 ⟨y, (List.mem_erase_of_ne hyne).2 hy, hyk⟩

/-- The status stored for `id` in the active registry, if any. -/
def statusOf (s : MState) (id : String) : Option MStatus :=
  (aget s.info id).map MTaskInfo.status

/-- The inductive invariant of the manager, proved to hold in every reachable
state.  `permits_running` is the semaphore discipline; `not_both`/`cover` say
that — as long as no task id has been submitted twice — every created id lives
in exactly one of the two registries; `running_exec` ties Running records to
in-flight executions; `started_ghost` relates `started_at` to the ghost
history; `created_lt` orders record creation stamps below the clock. -/
structure Inv (mc : Nat) (s : MState) : Prop where
  permits_running : s.permits + s.running.length = mc
  nodup_info : (akeys s.info).Nodup
  nodup_completed : (akeys s.completed).Nodup
  info_created : ∀ k, k ∈ akeys s.info → k ∈ s.created
  completed_created : ∀ k, k ∈ akeys s.completed → k ∈ s.created
  not_both : s.dup = false → ∀ k, k ∈ akeys s.info → k ∉ akeys s.completed
  cover : s.dup = false → ∀ k, k ∈ s.created → k ∈ akeys s.info ∨ k ∈ akeys s.completed
  completed_terminal : ∀ p, p ∈ s.completed → MStatus.isTerminal p.2.status = true
  running_exec : ∀ p, p ∈ s.info → p.2.status = MStatus.running → p.1 ∈ execIds s.running
  started_ghost : ∀ p, p ∈ s.info ∨ p ∈ s.completed →
    (p.2.started_at.isSome = p.2.ranCur ∧ (p.2.started_at.isSome = true → p.2.everRan = true))
  created_lt : ∀ p, p ∈ s.info → p.2.created_at < s.time

theorem inv_initState (mc : Nat) : Inv mc (initState mc) := by
  constructor <;> simp [initState, akeys, execIds]

theorem inv_submitStep {mc : Nat} {s : MState} (inv : Inv mc s)
    (id : String) (prio : Nat) (tmo : Option Nat) (mr : Nat) :
    Inv mc (submitStep s id prio tmo mr) := by
  refine
    { permits_running := inv.permits_running
      nodup_info := nodup_akeys_aset inv.nodup_info
      nodup_completed := inv.nodup_completed
      info_created := ?_
      completed_created := ?_
      not_both := ?_
      cover := ?_
      completed_terminal := inv.completed_terminal
      running_exec := ?_
      started_ghost := ?_
      created_lt := ?_ }
  · intro k hk
    simp only [submitStep] at hk ⊢
    rcases mem_akeys_aset.1 hk with hk | hk
    · subst hk
      simp
    · exact List.mem_append_left _ (inv.info_created k hk)
  · intro k hk
    simp only [submitStep] at hk ⊢
    exact List.mem_append_left _ (inv.completed_created k hk)
  · intro hd k hk hkc
    simp only [submitStep] at hd hk hkc
    rw [Bool.or_eq_false_iff] at hd
    have hdup : s.dup = false := hd.1
    have hnc : id ∉ s.created := by
      have := hd.2
      simp at this
      exact this
    rcases mem_akeys_aset.1 hk with hk | hk
    · subst hk
      exact hnc (inv.completed_created _ hkc)
    · exact inv.not_both hdup k hk hkc
  · intro hd k hk
    simp only [submitStep] at hd hk ⊢
    rw [Bool.or_eq_false_iff] at hd
    rcases List.mem_append.1 hk with hk | hk
    · rcases inv.cover hd.1 k hk with hk | hk
      · exact Or.inl (mem_akeys_aset.2 (Or.inr hk))
      · exact Or.inr hk
    · simp only [List.mem_singleton] at hk
      subst hk
      exact Or.inl (mem_akeys_aset.2 (Or.inl rfl))
  · intro p hp hst
    simp only [submitStep] at hp ⊢
    rcases mem_aset hp with hp | hp
    · subst hp
      simp [mkInfo] at hst
    · exact inv.running_exec p hp hst
  · intro p hp
    simp only [submitStep] at hp
    rcases hp with hp | hp
    · rcases mem_aset hp with hp | hp
      · subst hp
        simp [mkInfo]
      · exact inv.started_ghost p (Or.inl hp)
    · exact inv.started_ghost p (Or.inr hp)
  · intro p hp
    simp only [submitStep] at hp ⊢
    rcases mem_aset hp with hp | hp
    · subst hp
      simp [mkInfo]
    · exact Nat.lt_succ_of_lt (inv.created_lt p hp)

theorem inv_skipStep {mc : Nat} {s : MState} (inv : Inv mc s) (q' : List QEntry) :
    Inv mc (skipStep s q') := by
  refine
    { permits_running := inv.permits_running
      nodup_info := inv.nodup_info
      nodup_completed := inv.nodup_completed
      info_created := inv.info_created
      completed_created := inv.completed_created
      not_both := inv.not_both
      cover := inv.cover
      completed_terminal := inv.completed_terminal
      running_exec := inv.running_exec
      started_ghost := inv.started_ghost
      created_lt := ?_ }
  intro p hp
  exact Nat.lt_succ_of_lt (inv.created_lt p hp)

theorem inv_startStep {mc : Nat} {s : MState} (inv : Inv mc s)
    {id : String} {ti : MTaskInfo} (q' : List QEntry)
    (hperm : 0 < s.permits) (hget : aget s.info id = some ti) :
    Inv mc (startStep s q' id ti) := by
  have hmem : (id, ti) ∈ s.info := aget_some_mem hget
  have hkey : id ∈ akeys s.info := mem_akeys_of_aget hget
  refine
    { permits_running := ?_
      nodup_info := nodup_akeys_aset inv.nodup_info
      nodup_completed := inv.nodup_completed
      info_created := ?_
      completed_created := inv.completed_created
      not_both := ?_
      cover := ?_
      completed_terminal := inv.completed_terminal
      running_exec := ?_
      started_ghost := ?_
      created_lt := ?_ }
  · have := inv.permits_running
    simp only [startStep, List.length_append, List.length_cons, List.length_nil]
    omega
  · intro k hk
    simp only [startStep] at hk ⊢
    rcases mem_akeys_aset.1 hk with hk | hk
    · subst hk
      exact inv.info_created _ hkey
    · exact inv.info_created k hk
  · intro hd k hk hkc
    simp only [startStep] at hd hk hkc
    rcases mem_akeys_aset.1 hk with hk | hk
    · subst hk
      exact inv.not_both hd _ hkey hkc
    · exact inv.not_both hd k hk hkc
  · intro hd k hk
    simp only [startStep] at hd hk ⊢
    rcases inv.cover hd k hk with h | h
    · exact Or.inl (mem_akeys_aset.2 (Or.inr h))
    · exact Or.inr h
  · intro p hp hst
    simp only [startStep] at hp ⊢
    rcases mem_aset hp with hp | hp
    · subst hp
      simp [execIds]
    · exact mem_execIds_append (inv.running_exec p hp hst)
  · intro p hp
    simp only [startStep] at hp
    rcases hp with hp | hp
    · rcases mem_aset hp with hp | hp
      · subst hp
        simp
      · exact inv.started_ghost p (Or.inl hp)
    · exact inv.started_ghost p (Or.inr hp)
  · intro p hp
    simp only [startStep] at hp ⊢
    rcases mem_aset hp with hp | hp
    · subst hp
      exact Nat.lt_succ_of_lt (inv.created_lt (id, ti) hmem)
    · exact Nat.lt_succ_of_lt (inv.created_lt p hp)

theorem inv_moveState {mc : Nat} {s : MState} (inv : Inv mc s)
    {ex : Exec} {ti : MTaskInfo} {nti : MTaskInfo}
    (hex : ex ∈ s.running) (hget : aget s.info ex.task_id = some ti)
    (hterm : MStatus.isTerminal nti.status = true)
    (hstarted : nti.started_at = ti.started_at)
    (hranCur : nti.ranCur = ti.ranCur)
    (heverRan : nti.everRan = ti.everRan) :
    Inv mc (moveState s ex nti) := by
  have hmem : (ex.task_id, ti) ∈ s.info := aget_some_mem hget
  have hkey : ex.task_id ∈ akeys s.info := mem_akeys_of_aget hget
  have hlen : (s.running.erase ex).length = s.running.length - 1 :=
    List.length_erase_of_mem hex
  have hpos : 0 < s.running.length := List.length_pos.2 (List.ne_nil_of_mem hex)
  refine
    { permits_running := ?_
      nodup_info := nodup_akeys_aerase inv.nodup_info
      nodup_completed := nodup_akeys_aset inv.nodup_completed
      info_created := ?_
      completed_created := ?_
      not_both := ?_
      cover := ?_
      completed_terminal := ?_
      running_exec := ?_
      started_ghost := ?_
      created_lt := ?_ }
  · have := inv.permits_running
    simp only [moveState, hlen]
    omega
  · intro k hk
    simp only [moveState] at hk ⊢
    exact inv.info_created k ((mem_akeys_aerase inv.nodup_info).1 hk).1
  · intro k hk
    simp only [moveState] at hk ⊢
    rcases mem_akeys_aset.1 hk with hk | hk
    · subst hk
      exact inv.info_created _ hkey
    · exact inv.completed_created k hk
  · intro hd k hk hkc
    simp only [moveState] at hd hk hkc
    obtain ⟨hk1, hk2⟩ := (mem_akeys_aerase inv.nodup_info).1 hk
    rcases mem_akeys_aset.1 hkc with hkc | hkc
    · exact hk2 hkc
    · exact inv.not_both hd k hk1 hkc
  · intro hd k hk
    simp only [moveState] at hd hk ⊢
    rcases inv.cover hd k hk with h | h
    · by_cases hke : k = ex.task_id
      · subst hke
        exact Or.inr (mem_akeys_aset.2 (Or.inl rfl))
      · exact Or.inl ((mem_akeys_aerase inv.nodup_info).2 ⟨h, hke⟩)
    · exact Or.inr (mem_akeys_aset.2 (Or.inr h))
  · intro p hp
    simp only [moveState] at hp
    rcases mem_aset hp with hp | hp
    · subst hp
      exact hterm
    · exact inv.completed_terminal p hp
  · intro p hp hst
    simp only [moveState] at hp ⊢
    obtain ⟨hp1, hp2⟩ := mem_aerase_nodup inv.nodup_info hp
    exact execIds_erase (inv.running_exec p hp1 hst) hp2
  · intro p hp
    simp only [moveState] at hp
    rcases hp with hp | hp
    · exact inv.started_ghost p (Or.inl (mem_aerase hp))
    · rcases mem_aset hp with hp | hp
      · subst hp
        have := inv.started_ghost (ex.task_id, ti) (Or.inl hmem)
        simpa [hstarted, hranCur, heverRan] using this
      · exact inv.started_ghost p (Or.inr hp)
  · intro p hp
    simp only [moveState] at hp ⊢
    exact Nat.lt_succ_of_lt (inv.created_lt p (mem_aerase hp))

theorem inv_finishExcRetryStep {mc : Nat} {s : MState} (inv : Inv mc s)
    {ex : Exec} {ti : MTaskInfo} (msg : String)
    (hex : ex ∈ s.running) (hget : aget s.info ex.task_id = some ti) :
    Inv mc (finishExcRetryStep s ex ti msg) := by
  have hmem : (ex.task_id, ti) ∈ s.info := aget_some_mem hget
  have hkey : ex.task_id ∈ akeys s.info := mem_akeys_of_aget hget
  have hlen : (s.running.erase ex).length = s.running.length - 1 :=
    List.length_erase_of_mem hex
  have hpos : 0 < s.running.length := List.length_pos.2 (List.ne_nil_of_mem hex)
  refine
    { permits_running := ?_
      nodup_info := nodup_akeys_aset inv.nodup_info
      nodup_completed := inv.nodup_completed
      info_created := ?_
      completed_created := inv.completed_created
      not_both := ?_
      cover := ?_
      completed_terminal := inv.completed_terminal
      running_exec := ?_
      started_ghost := ?_
      created_lt := ?_ }
  · have := inv.permits_running
    simp only [finishExcRetryStep, hlen]
    omega
  · intro k hk
    simp only [finishExcRetryStep] at hk ⊢
    rcases mem_akeys_aset.1 hk with hk | hk
    · subst hk
      exact inv.info_created _ hkey
    · exact inv.info_created k hk
  · intro hd k hk hkc
    simp only [finishExcRetryStep] at hd hk hkc
    rcases mem_akeys_aset.1 hk with hk | hk
    · subst hk
      exact inv.not_both hd _ hkey hkc
    · exact inv.not_both hd k hk hkc
  · intro hd k hk
    simp only [finishExcRetryStep] at hd hk ⊢
    rcases inv.cover hd k hk with h | h
    · exact Or.inl (mem_akeys_aset.2 (Or.inr h))
    · exact Or.inr h
  · intro p hp hst
    simp only [finishExcRetryStep] at hp ⊢
    rcases mem_aset_nodup inv.nodup_info hp with hp | hp
    · subst hp
      simp [retryReset] at hst
    · exact execIds_erase (inv.running_exec p hp.1 hst) hp.2
  · intro p hp
    simp only [finishExcRetryStep] at hp
    rcases hp with hp | hp
    · rcases mem_aset hp with hp | hp
      · subst hp
        simp [retryReset]
      · exact inv.started_ghost p (Or.inl hp)
    · exact inv.started_ghost p (Or.inr hp)
  · intro p hp
    simp only [finishExcRetryStep] at hp ⊢
    rcases mem_aset hp with hp | hp
    · subst hp
      exact Nat.lt_succ_of_lt (inv.created_lt (ex.task_id, ti) hmem)
    · exact Nat.lt_succ_of_lt (inv.created_lt p hp)

theorem inv_finishDeadStep {mc : Nat} {s : MState} (inv : Inv mc s)
    {ex : Exec} (hex : ex ∈ s.running) (hget : aget s.info ex.task_id = none) :
    Inv mc (finishDeadStep s ex) := by
  have hlen : (s.running.erase ex).length = s.running.length - 1 :=
    List.length_erase_of_mem hex
  have hpos : 0 < s.running.length := List.length_pos.2 (List.ne_nil_of_mem hex)
  have hnk : ex.task_id ∉ akeys s.info := aget_none_iff_not_mem.1 hget
  refine
    { permits_running := ?_
      nodup_info := inv.nodup_info
      nodup_completed := inv.nodup_completed
      info_created := inv.info_created
      completed_created := inv.completed_created
      not_both := inv.not_both
      cover := inv.cover
      completed_terminal := inv.completed_terminal
      running_exec := ?_
      started_ghost := inv.started_ghost
      created_lt := ?_ }
  · have := inv.permits_running
    simp only [finishDeadStep, hlen]
    omega
  · intro p hp hst
    simp only [finishDeadStep] at hp ⊢
    have hne : p.1 ≠ ex.task_id := by
      intro h
      exact hnk (h ▸ List.mem_map_of_mem Prod.fst hp)
    exact execIds_erase (inv.running_exec p hp hst) hne
  · intro p hp
    exact Nat.lt_succ_of_lt (inv.created_lt p hp)

theorem inv_cancelStep {mc : Nat} {s : MState} (inv : Inv mc s)
    {id : String} {ti : MTaskInfo} (hget : aget s.info id = some ti) :
    Inv mc (cancelStep s id ti) := by
  have hmem : (id, ti) ∈ s.info := aget_some_mem hget
  have hkey : id ∈ akeys s.info := mem_akeys_of_aget hget
  refine
    { permits_running := inv.permits_running
      nodup_info := nodup_akeys_aset inv.nodup_info
      nodup_completed := inv.nodup_completed
      info_created := ?_
      completed_created := inv.completed_created
      not_both := ?_
      cover := ?_
      completed_terminal := inv.completed_terminal
      running_exec := ?_
      started_ghost := ?_
      created_lt := ?_ }
  · intro k hk
    simp only [cancelStep] at hk ⊢
    rcases mem_akeys_aset.1 hk with hk | hk
    · subst hk
      exact inv.info_created _ hkey
    · exact inv.info_created k hk
  · intro hd k hk hkc
    simp only [cancelStep] at hd hk hkc
    rcases mem_akeys_aset.1 hk with hk | hk
    · subst hk
      exact inv.not_both hd _ hkey hkc
    · exact inv.not_both hd k hk hkc
  · intro hd k hk
    simp only [cancelStep] at hd hk ⊢
    rcases inv.cover hd k hk with h | h
    · exact Or.inl (mem_akeys_aset.2 (Or.inr h))
    · exact Or.inr h
  · intro p hp hst
    simp only [cancelStep] at hp ⊢
    rcases mem_aset hp with hp | hp
    · subst hp
      simp [cancelMark] at hst
    · exact inv.running_exec p hp hst
  · intro p hp
    simp only [cancelStep] at hp
    rcases hp with hp | hp
    · rcases mem_aset hp with hp | hp
      · subst hp
        have := inv.started_ghost (id, ti) (Or.inl hmem)
        simpa [cancelMark] using this
      · exact inv.started_ghost p (Or.inl hp)
    · exact inv.started_ghost p (Or.inr hp)
  · intro p hp
    simp only [cancelStep] at hp ⊢
    rcases mem_aset hp with hp | hp
    · subst hp
      exact Nat.lt_succ_of_lt (inv.created_lt (id, ti) hmem)
    · exact Nat.lt_succ_of_lt (inv.created_lt p hp)

/-- The invariant is preserved by every step. -/
theorem inv_step {mc : Nat} {s t : MState} (inv : Inv mc s) (h : Step s t) : Inv mc t := by
  cases h with
  | submit id prio tmo mr => exact inv_submitStep inv id prio tmo mr
  | skipCancelled e q' ti hpop hperm hget hst => exact inv_skipStep inv q'
  | skipDead e q' hpop hperm hget => exact inv_skipStep inv q'
  | start e q' ti hpop hperm hget hne => exact inv_startStep inv q' hperm hget
  | finishOk ex ti v hex hget =>
    exact inv_moveState inv hex hget rfl rfl rfl rfl
  | finishCancelled ex ti hex hget =>
    exact inv_moveState inv hex hget rfl rfl rfl rfl
  | finishTimeout ex ti t hex hget htmo htz =>
    exact inv_moveState inv hex hget rfl rfl rfl rfl
  | finishExcRetry ex ti msg hex hget hrc => exact inv_finishExcRetryStep inv msg hex hget
  | finishExcFail ex ti msg hex hget hrc =>
    exact inv_moveState inv hex hget rfl rfl rfl rfl
  | finishDead ex hex hget => exact inv_finishDeadStep inv hex hget
  | cancel id ti hget => exact inv_cancelStep inv hget

/-- Every reachable state satisfies the invariant. -/
theorem inv_reach {mc : Nat} {s : MState} (h : Reach mc s) : Inv mc s := by
  induction h with
  | init => exact inv_initState mc
  | step _ hst ih => exact inv_step ih hst

/-! ## Claim theorems -/

/-- The start of an attempt (lines 454-456): mark Running and stamp
`started_at` (plus ghost history). -/
def startMark (ti : MTaskInfo) (now : Nat) : MTaskInfo :=
  { ti with status := .running, started_at := some now, everRan := true, ranCur := true }

theorem executeAttempt_failBody (ti : MTaskInfo) (msg : String) (now : Nat) :
    executeAttempt ti (failBody msg) now = excFinish (startMark ti now) msg now := by
  cases htm : ti.timeout with
  | none =>
    simp only [executeAttempt, failBody, htm, startMark, Nat.add_zero]
  | some t =>
    simp only [executeAttempt, failBody, htm, startMark]
    rw [if_neg]
    · simp
    · rintro ⟨h1, h2⟩
      omega

/-- How an always-raising task evolves: starting from retry count `rc` with
`rc < max_retries` and enough gas, exactly `max_retries - rc` further attempts
are made and the final record is terminal Failed with
`retry_count = max_retries`. -/
theorem runAlwaysFail_spec (msg : String) :
    ∀ (gas : Nat) (ti : MTaskInfo) (now : Nat),
    ti.retry_count < ti.max_retries → ti.max_retries ≤ ti.retry_count + gas + 1 →
    (runAlwaysFail msg ti now gas).1 = ti.max_retries - ti.retry_count ∧
    (runAlwaysFail msg ti now gas).2.retry_count = ti.max_retries ∧
    (runAlwaysFail msg ti now gas).2.status = MStatus.failed := by
  intro gas
  induction gas with
  | zero =>
    intro ti now h1 h2
    have hm : ti.max_retries = ti.retry_count + 1 := by omega
    have hnl : ¬(ti.retry_count + 1 < ti.max_retries) := by omega
    have heq : runAlwaysFail msg ti now 0 = (1, failFinal (startMark ti now) msg now) := by
      rw [runAlwaysFail, executeAttempt_failBody]
      simp only [excFinish, startMark]
      simp [hnl]
    rw [heq]
    refine ⟨by omega, ?_, rfl⟩
    show ti.retry_count + 1 = ti.max_retries
    omega
  | succ gas ih =>
    intro ti now h1 h2
    by_cases hlt : ti.retry_count + 1 < ti.max_retries
    · have heq : runAlwaysFail msg ti now (gas + 1) =
          ((runAlwaysFail msg (retryReset (startMark ti now) msg) (now + 1) gas).1 + 1,
           (runAlwaysFail msg (retryReset (startMark ti now) msg) (now + 1) gas).2) := by
        rw [runAlwaysFail, executeAttempt_failBody]
        simp only [excFinish, startMark]
        simp [hlt]
      have hr1 : (retryReset (startMark ti now) msg).retry_count = ti.retry_count + 1 := rfl
      have hr2 : (retryReset (startMark ti now) msg).max_retries = ti.max_retries := rfl
      have ihres := ih (retryReset (startMark ti now) msg) (now + 1)
        (by rw [hr1, hr2]; exact hlt) (by rw [hr1, hr2]; omega)
      rw [hr1, hr2] at ihres
      rw [heq]
      refine ⟨?_, ihres.2.1, ihres.2.2⟩
      show (runAlwaysFail msg (retryReset (startMark ti now) msg) (now + 1) gas).1 + 1
          = ti.max_retries - ti.retry_count
      rw [ihres.1]
      omega
    · have hm : ti.max_retries = ti.retry_count + 1 := by omega
      have heq : runAlwaysFail msg ti now (gas + 1)
          = (1, failFinal (startMark ti now) msg now) := by
        rw [runAlwaysFail, executeAttempt_failBody]
        simp only [excFinish, startMark]
        simp [hlt]
      rw [heq]
      refine ⟨by omega, ?_, rfl⟩
      show ti.retry_count + 1 = ti.max_retries
      omega

/-- C1 (amended).  An always-raising task submitted with `max_retries = m` is
attempted exactly `max m 1` times in total — `m` times when `m ≥ 1`, once when
`m = 0` — after which its record is terminal Failed with
`retry_count = max m 1` (so `retry_count = max_retries` exactly when `m ≥ 1`);
and the `except Exception` branch re-queues the task exactly when the
*incremented* retry count is still below `max_retries`. -/
theorem c1_retry_bound_amended (m : Nat) (msg : String) (ti : MTaskInfo) (now : Nat) :
    (runAlwaysFail msg (freshInfo m) 0 m).1 = max m 1 ∧
    (runAlwaysFail msg (freshInfo m) 0 m).2.retry_count = max m 1 ∧
    (runAlwaysFail msg (freshInfo m) 0 m).2.status = MStatus.failed ∧
    MStatus.isTerminal (runAlwaysFail msg (freshInfo m) 0 m).2.status = true ∧
    ((excFinish ti msg now).2 = true ↔ ti.retry_count + 1 < ti.max_retries) := by
  have hiff : (excFinish ti msg now).2 = true ↔ ti.retry_count + 1 < ti.max_retries := by
    rw [excFinish]
    by_cases h : ti.retry_count + 1 < ti.max_retries
    · simp [h]
    · simp [h]
  rcases Nat.eq_zero_or_pos m with hm | hm
  · subst hm
    exact ⟨rfl, rfl, rfl, rfl, hiff⟩
  · have h1 : (freshInfo m).retry_count < (freshInfo m).max_retries := by
      simp [freshInfo, mkInfo]
      omega
    have h2 : (freshInfo m).max_retries ≤ (freshInfo m).retry_count + m + 1 := by
      simp [freshInfo, mkInfo]
    have hspec := runAlwaysFail_spec msg m (freshInfo m) 0 h1 h2
    have hmr : (freshInfo m).max_retries = m := rfl
    have hrc : (freshInfo m).retry_count = 0 := rfl
    rw [hmr, hrc] at hspec
    have hmax : max m 1 = m := by omega
    refine ⟨?_, ?_, hspec.2.2, ?_, hiff⟩
    · rw [hspec.1]
      omega
    · rw [hspec.2.1]
      omega
    · rw [hspec.2.2]
      rfl

/-- C1 witness: the amended claim at `max_retries = 3`. -/
theorem c1_retry_bound_witness :
    (runAlwaysFail "e" (freshInfo 3) 0 3).1 = max 3 1 ∧
    (runAlwaysFail "e" (freshInfo 3) 0 3).2.retry_count = max 3 1 ∧
    (runAlwaysFail "e" (freshInfo 3) 0 3).2.status = MStatus.failed ∧
    MStatus.isTerminal (runAlwaysFail "e" (freshInfo 3) 0 3).2.status = true ∧
    ((excFinish (freshInfo 3) "e" 0).2 = true ↔
      (freshInfo 3).retry_count + 1 < (freshInfo 3).max_retries) :=
  c1_retry_bound_amended 3 "e" (freshInfo 3) 0

/-- C1 counterexample: with `max_retries = 3` the always-raising task is
attempted 3 times in total (the generous gas of 10 changes nothing), not
`3 + 1 = 4` as the claim states. -/
theorem c1_counterexample :
    (runAlwaysFail "boom" (freshInfo 3) 0 10).1 = 3 ∧
    (runAlwaysFail "boom" (freshInfo 3) 0 10).1 ≠ 3 + 1 := by
  exact ⟨by decide, by decide⟩

/-- C3 (code bug).  `submit_task` on a full queue does not report QueueFull to
the caller: `await put` suspends until space frees up, so the call blocks.  The
`except asyncio.QueueFull` branch (and the docstring promise) are unreachable:
no outcome of `submitOutcome` is `queueFull`. -/
theorem c3_full_queue_blocks (qsize maxsize : Nat) (id : String)
    (hpos : 0 < maxsize) (hfull : maxsize ≤ qsize) :
    submitOutcome qsize maxsize id = SubmitRes.blocked ∧
    SubmitRes.blocked ≠ SubmitRes.queueFull ∧
    (∀ qs ms : Nat, submitOutcome qs ms id ≠ SubmitRes.queueFull) := by
  refine ⟨?_, by simp, ?_⟩
  · rw [submitOutcome, if_pos ⟨hpos, hfull⟩]
  · intro qs ms
    rw [submitOutcome]
    by_cases h : 0 < ms ∧ ms ≤ qs
    · rw [if_pos h]
      simp
    · rw [if_neg h]
      simp

/-- C3 witness: a manager with `max_queue_size = 1000` whose queue already
holds 1000 entries blocks the submitting caller instead of raising. -/
theorem c3_full_queue_blocks_witness :
    submitOutcome 1000 1000 "task_x" = SubmitRes.blocked ∧
    SubmitRes.blocked ≠ SubmitRes.queueFull ∧
    (∀ qs ms : Nat, submitOutcome qs ms "task_x" ≠ SubmitRes.queueFull) :=
  c3_full_queue_blocks 1000 1000 "task_x" (by omega) (by omega)

/-- C7 (amended).  A task whose `timeout` is a *non-zero* duration `t` and whose
body runs longer than `t` finishes as terminal TimedOut: it is not re-queued,
`retry_count` is untouched, and the error message embeds the timeout duration. -/
theorem c7_timeout_terminal (ti : MTaskInfo) (b : MBody) (now t : Nat)
    (htmo : ti.timeout = some t) (htz : 0 < t) (hdur : t < b.duration) :
    (executeAttempt ti b now).1.status = MStatus.timeout ∧
    MStatus.isTerminal (executeAttempt ti b now).1.status = true ∧
    (executeAttempt ti b now).2 = false ∧
    (executeAttempt ti b now).1.retry_count = ti.retry_count ∧
    (∃ pre post, (executeAttempt ti b now).1.error_message
      = some (pre ++ toString t ++ post)) := by
  have hcond : t ≠ 0 ∧ b.duration > t := ⟨by omega, hdur⟩
  have heq : executeAttempt ti b now = ({ startMark ti now with status := .timeout, completed_at := some (now + t), error_message := some (timeoutMessage t) }, false) := by
    simp only [executeAttempt, htmo, startMark]
    rw [if_pos hcond]
  rw [heq]
  refine ⟨rfl, rfl, rfl, rfl, "任务执行超时 (", "s)", rfl⟩

/-- C7 witness: `timeout = 2` ticks, body takes 5 ticks. -/
theorem c7_timeout_terminal_witness :
    (executeAttempt (mkInfo "t" 3 0 (some 2) 3) ⟨5, BodyRes.ok 7⟩ 0).1.status = MStatus.timeout ∧
    MStatus.isTerminal (executeAttempt (mkInfo "t" 3 0 (some 2) 3) ⟨5, BodyRes.ok 7⟩ 0).1.status = true ∧
    (executeAttempt (mkInfo "t" 3 0 (some 2) 3) ⟨5, BodyRes.ok 7⟩ 0).2 = false ∧
    (executeAttempt (mkInfo "t" 3 0 (some 2) 3) ⟨5, BodyRes.ok 7⟩ 0).1.retry_count
      = (mkInfo "t" 3 0 (some 2) 3).retry_count ∧
    (∃ pre post, (executeAttempt (mkInfo "t" 3 0 (some 2) 3) ⟨5, BodyRes.ok 7⟩ 0).1.error_message
      = some (pre ++ toString 2 ++ post)) :=
  c7_timeout_terminal (mkInfo "t" 3 0 (some 2) 3) ⟨5, BodyRes.ok 7⟩ 0 2 rfl (by omega) (by decide)

/-- C7 counterexample: a task with `timeout = 0` whose body runs 5 ticks — i.e.
longer than its timeout — completes normally instead of timing out, because
`if task_info.timeout:` treats `0` as "no timeout". -/
theorem c7_counterexample :
    (mkInfo "t" 3 0 (some 0) 3).timeout = some 0 ∧
    (5 : Nat) > 0 ∧
    (executeAttempt (mkInfo "t" 3 0 (some 0) 3) ⟨5, BodyRes.ok 7⟩ 0).1.status
      = MStatus.completed ∧
    MStatus.completed ≠ MStatus.timeout := by
  exact ⟨rfl, by omega, rfl, by simp⟩

/-- C2 (amended).  As long as no task id is submitted twice, every created id
lives in exactly one of the two registries — never both, never neither — and
every record in the completed registry is terminal.  However, removal from the
active registry is *not* tied to becoming terminal: `cancel_task` marks a
record terminal Cancelled in place, leaving it in the active registry and
untouched in the completed registry (final conjunct). -/
theorem c2_registry_partition (mc : Nat) (s : MState)
    (h : Reach mc s) (hdup : s.dup = false) :
    (∀ k, k ∈ akeys s.info → k ∉ akeys s.completed) ∧
    (∀ k, k ∈ s.created → k ∈ akeys s.info ∨ k ∈ akeys s.completed) ∧
    (∀ p ∈ s.completed, MStatus.isTerminal p.2.status = true) ∧
    (∀ (s0 : MState) (id : String) (ti : MTaskInfo),
      aget (cancelStep s0 id ti).info id = some (cancelMark ti s0.time) ∧
      (cancelStep s0 id ti).completed = s0.completed ∧
      MStatus.isTerminal (cancelMark ti s0.time).status = true) := by
  have inv := inv_reach h
  refine ⟨fun k hk => inv.not_both hdup k hk, inv.cover hdup, inv.completed_terminal, ?_⟩
  intro s0 id ti
  exact ⟨aget_aset_self s0.info id (cancelMark ti s0.time), rfl, rfl⟩

/-- C2 witness: the partition facts at the reachable state with one submitted
task. -/
theorem c2_registry_partition_witness :
    (∀ k, k ∈ akeys (submitStep (initState 1) "a" 3 none 3).info
      → k ∉ akeys (submitStep (initState 1) "a" 3 none 3).completed) ∧
    (∀ k, k ∈ (submitStep (initState 1) "a" 3 none 3).created
      → k ∈ akeys (submitStep (initState 1) "a" 3 none 3).info
        ∨ k ∈ akeys (submitStep (initState 1) "a" 3 none 3).completed) ∧
    (∀ p ∈ (submitStep (initState 1) "a" 3 none 3).completed,
      MStatus.isTerminal p.2.status = true) ∧
    (∀ (s0 : MState) (id : String) (ti : MTaskInfo),
      aget (cancelStep s0 id ti).info id = some (cancelMark ti s0.time) ∧
      (cancelStep s0 id ti).completed = s0.completed ∧
      MStatus.isTerminal (cancelMark ti s0.time).status = true) :=
  c2_registry_partition 1 (submitStep (initState 1) "a" 3 none 3)
    (Reach.step Reach.init (Step.submit (initState 1) "a" 3 none 3)) rfl

/-- C2 counterexample: submit "t1", then cancel it while Pending.  In the
resulting reachable state the record is terminal Cancelled, yet it is still in
the active registry and absent from the completed registry — removal from
active did not happen when the status became terminal. -/
theorem c2_counterexample :
    Reach 1 (cancelStep (submitStep (initState 1) "t1" 3 none 3) "t1" (mkInfo "t1" 3 0 none 3)) ∧
    aget (cancelStep (submitStep (initState 1) "t1" 3 none 3) "t1"
      (mkInfo "t1" 3 0 none 3)).info "t1" = some (cancelMark (mkInfo "t1" 3 0 none 3) 1) ∧
    (cancelMark (mkInfo "t1" 3 0 none 3) 1).status = MStatus.cancelled ∧
    MStatus.isTerminal (cancelMark (mkInfo "t1" 3 0 none 3) 1).status = true ∧
    aget (cancelStep (submitStep (initState 1) "t1" 3 none 3) "t1"
      (mkInfo "t1" 3 0 none 3)).completed "t1" = none := by
  refine ⟨?_, by decide, by decide, by decide, by decide⟩
  exact Reach.step (Reach.step Reach.init (Step.submit (initState 1) "t1" 3 none 3))
    (Step.cancel (submitStep (initState 1) "t1" 3 none 3) "t1" (mkInfo "t1" 3 0 none 3) (by decide))

/-- C9 (amended).  In every reachable state and for every record (active or
completed), `started_at` is non-null exactly when the record has been Running
since it last entered Pending (ghost `ranCur`): the retry path clears
`started_at` again.  Moreover a non-null `started_at` implies the record has at
some point been Running (ghost `everRan`); the converse fails. -/
theorem c9_started_at_amended (mc : Nat) (s : MState) (h : Reach mc s)
    (k : String) (ti : MTaskInfo)
    (hmem : (k, ti) ∈ s.info ∨ (k, ti) ∈ s.completed) :
    ti.started_at.isSome = ti.ranCur ∧ (ti.started_at.isSome = true → ti.everRan = true) := by
  have inv := inv_reach h
  exact inv.started_ghost (k, ti) hmem

/-- C9 witness: the freshly submitted record has null `started_at`, consistent
with never having run. -/
theorem c9_started_at_witness :
    (mkInfo "a" 3 0 none 3).started_at.isSome = (mkInfo "a" 3 0 none 3).ranCur ∧
    ((mkInfo "a" 3 0 none 3).started_at.isSome = true
      → (mkInfo "a" 3 0 none 3).everRan = true) :=
  c9_started_at_amended 1 (submitStep (initState 1) "a" 3 none 3)
    (Reach.step Reach.init (Step.submit (initState 1) "a" 3 none 3))
    "a" (mkInfo "a" 3 0 none 3) (Or.inl (by decide))

/-- Trace for the C9 counterexample: submit "t1", dispatch it, fail it once so
it is re-queued for retry. -/
def c9rec : MTaskInfo := mkInfo "t1" 3 0 none 3

def c9s1 : MState := submitStep (initState 1) "t1" 3 none 3

def c9s2 : MState := startStep c9s1 [] "t1" c9rec

def c9rec2 : MTaskInfo := startMark c9rec 1

def c9s3 : MState := finishExcRetryStep c9s2 ⟨0, "t1"⟩ c9rec2 "boom"

/-- C9 counterexample: after the first failed attempt of a retryable task, the
record has been Running (it is Running in the intermediate reachable state
`c9s2`) but its `started_at` is reset to null in the re-queued record — so
"started_at is set iff status has ever been Running" is false. -/
theorem c9_counterexample :
    Reach 1 c9s2 ∧ Step c9s2 c9s3 ∧
    (aget c9s2.info "t1").map MTaskInfo.status = some MStatus.running ∧
    aget c9s3.info "t1" = some (retryReset c9rec2 "boom") ∧
    (retryReset c9rec2 "boom").started_at = none ∧
    (retryReset c9rec2 "boom").everRan = true := by
  refine ⟨?_, ?_, by decide, by decide, by decide, by decide⟩
  · refine Reach.step (Reach.step Reach.init (Step.submit (initState 1) "t1" 3 none 3)) ?_
    exact Step.start c9s1 ⟨3, 0, "t1"⟩ [] c9rec (by decide) (by decide) (by decide) (by decide)
  · exact Step.finishExcRetry c9s2 ⟨0, "t1"⟩ c9rec2 "boom" (by decide) (by decide) (by decide)

/-- C6 (confirmed).  In every reachable state the number of in-flight
executions is at most `max_concurrent_tasks`: the free permits and the
in-flight executions always sum to exactly `mc` (each execution holds one
permit from dispatch to its `finally`), every record whose status is Running
has an in-flight execution, and hence at most `mc` records are Running at any
instant. -/
theorem c6_bounded_concurrency (mc : Nat) (s : MState) (h : Reach mc s) :
    s.running.length ≤ mc ∧
    s.permits + s.running.length = mc ∧
    (∀ p ∈ s.info, p.2.status = MStatus.running → p.1 ∈ execIds s.running) ∧
    (s.info.filter (fun p => p.2.status == MStatus.running)).length ≤ s.running.length := by
  have inv := inv_reach h
  refine ⟨by have := inv.permits_running; omega, inv.permits_running, inv.running_exec, ?_⟩
  have hsub : (s.info.filter (fun p => p.2.status == MStatus.running)).map Prod.fst
      ⊆ execIds s.running := by
    intro k hk
    obtain ⟨p, hp, hpk⟩ := List.mem_map.1 hk
    have hpf := List.mem_filter.1 hp
    have hst : p.2.status = MStatus.running := by
      have := hpf.2
      simpa using this
    exact hpk ▸ inv.running_exec p hpf.1 hst
  have hnd : ((s.info.filter (fun p => p.2.status == MStatus.running)).map Prod.fst).Nodup :=
    ((List.filter_sublist s.info).map Prod.fst).nodup inv.nodup_info
  have hle := (hnd.subperm hsub).length_le
  simpa [execIds] using hle

/-- C6 witness: the bound at the reachable empty state with `mc = 2`. -/
theorem c6_bounded_concurrency_witness :
    (initState 2).running.length ≤ 2 ∧
    (initState 2).permits + (initState 2).running.length = 2 ∧
    (∀ p ∈ (initState 2).info, p.2.status = MStatus.running
      → p.1 ∈ execIds (initState 2).running) ∧
    ((initState 2).info.filter (fun p => p.2.status == MStatus.running)).length
      ≤ (initState 2).running.length :=
  c6_bounded_concurrency 2 (initState 2) Reach.init

/-- C4 (confirmed).  Dequeue order follows the `(priority, submitted_at)` key:
the popped entry is minimal — no remaining entry has a lower priority value,
and no remaining entry of equal priority has an earlier timestamp (first
conjunct, via `keyLt`); a retried task is re-keyed with the requeue-time clock,
which is strictly later than the record's submission stamp (second conjunct);
and the scenario A(p=2,t=1), B(p=1,t=2), C(p=2,t=3) dispatches B, A, C (third
conjunct). -/
theorem c4_dequeue_order (q : List QEntry) (e : QEntry) (q' : List QEntry)
    (hpop : popMin q = some (e, q')) :
    (∀ x ∈ q', keyLt x e = false) ∧
    (∀ (mc : Nat) (s : MState) (ex : Exec) (ti : MTaskInfo) (msg : String),
      Reach mc s → aget s.info ex.task_id = some ti →
      (finishExcRetryStep s ex ti msg).queue = s.queue ++ [⟨ti.priority, s.time, ex.task_id⟩]
        ∧ ti.created_at < s.time) ∧
    (popMin [⟨2, 1, "A"⟩, ⟨1, 2, "B"⟩, ⟨2, 3, "C"⟩]
        = some (⟨1, 2, "B"⟩, [⟨2, 1, "A"⟩, ⟨2, 3, "C"⟩]) ∧
      popMin [⟨2, 1, "A"⟩, ⟨2, 3, "C"⟩] = some (⟨2, 1, "A"⟩, [⟨2, 3, "C"⟩]) ∧
      popMin [(⟨2, 3, "C"⟩ : QEntry)] = some (⟨2, 3, "C"⟩, [])) := by
  refine ⟨?_, ?_, by decide, by decide, by decide⟩
  · intro x hx
    exact popMin_min hpop x (popMin_rest_subset hpop x hx)
  · intro mc s ex ti msg hreach hget
    have inv := inv_reach hreach
    exact ⟨rfl, inv.created_lt (ex.task_id, ti) (aget_some_mem hget)⟩

/-- C4 witness: the minimality facts instantiated on the scenario queue. -/
theorem c4_dequeue_order_witness :
    (∀ x ∈ [(⟨2, 1, "A"⟩ : QEntry), ⟨2, 3, "C"⟩], keyLt x ⟨1, 2, "B"⟩ = false) ∧
    (∀ (mc : Nat) (s : MState) (ex : Exec) (ti : MTaskInfo) (msg : String),
      Reach mc s → aget s.info ex.task_id = some ti →
      (finishExcRetryStep s ex ti msg).queue = s.queue ++ [⟨ti.priority, s.time, ex.task_id⟩]
        ∧ ti.created_at < s.time) ∧
    (popMin [⟨2, 1, "A"⟩, ⟨1, 2, "B"⟩, ⟨2, 3, "C"⟩]
        = some (⟨1, 2, "B"⟩, [⟨2, 1, "A"⟩, ⟨2, 3, "C"⟩]) ∧
      popMin [⟨2, 1, "A"⟩, ⟨2, 3, "C"⟩] = some (⟨2, 1, "A"⟩, [⟨2, 3, "C"⟩]) ∧
      popMin [(⟨2, 3, "C"⟩ : QEntry)] = some (⟨2, 3, "C"⟩, [])) :=
  c4_dequeue_order [⟨2, 1, "A"⟩, ⟨1, 2, "B"⟩, ⟨2, 3, "C"⟩] ⟨1, 2, "B"⟩
    [⟨2, 1, "A"⟩, ⟨2, 3, "C"⟩] (by decide)

/-- Trace for C10: submit id "X" twice (second submit overwrites the record and
enqueues a second handle), then dispatch both handles. -/
def c10rec : MTaskInfo := mkInfo "X" 3 1 none 3

def c10s2 : MState := submitStep (submitStep (initState 2) "X" 3 none 3) "X" 3 none 3

def c10s3 : MState := startStep c10s2 [⟨3, 1, "X"⟩] "X" c10rec

def c10rec2 : MTaskInfo := startMark c10rec 2

def c10s4 : MState := startStep c10s3 [] "X" c10rec2

/-- C10 (confirmed).  `submit_task` performs no uniqueness check: re-submitting
an id already present in the active registry succeeds (for a non-full queue),
silently replaces the stored record with the fresh one — the registry still
holds exactly one entry for the id — and appends a second queue entry under the
same id.  The concrete trace `c10s4` then shows both queued handles being
dispatched against the single surviving record: the body starts twice while the
registry holds one record. -/
theorem c10_duplicate_submit (s : MState) (id : String) (prio : Nat) (tmo : Option Nat)
    (mr : Nat) (ti : MTaskInfo)
    (hget : aget s.info id = some ti) (hnd : (akeys s.info).Nodup) :
    aget (submitStep s id prio tmo mr).info id = some (mkInfo id prio s.time tmo mr) ∧
    (submitStep s id prio tmo mr).queue = s.queue ++ [⟨prio, s.time, id⟩] ∧
    ((submitStep s id prio tmo mr).queue.filter (fun e => e.task_id == id)).length
      = (s.queue.filter (fun e => e.task_id == id)).length + 1 ∧
    (akeys (submitStep s id prio tmo mr).info).count id = 1 ∧
    (∀ qsize maxsize : Nat, ¬(0 < maxsize ∧ maxsize ≤ qsize) →
      submitOutcome qsize maxsize id = SubmitRes.ok id) ∧
    (Reach 2 c10s4 ∧ c10s4.started.count "X" = 2 ∧ c10s4.info.length = 1) := by
  refine ⟨aget_aset_self s.info id (mkInfo id prio s.time tmo mr), rfl, ?_, ?_, ?_, ?_, ?_, ?_⟩
  · simp [submitStep, List.filter_append]
  · exact List.count_eq_one_of_mem (nodup_akeys_aset hnd) (mem_akeys_aset.2 (Or.inl rfl))
  · intro qsize maxsize hn
    rw [submitOutcome, if_neg hn]
  · have r1 : Reach 2 c10s2 :=
      Reach.step (Reach.step Reach.init (Step.submit (initState 2) "X" 3 none 3))
        (Step.submit (submitStep (initState 2) "X" 3 none 3) "X" 3 none 3)
    have r2 : Reach 2 c10s3 :=
      Reach.step r1 (Step.start c10s2 ⟨3, 0, "X"⟩ [⟨3, 1, "X"⟩] c10rec
        (by decide) (by decide) (by decide) (by decide))
    exact Reach.step r2 (Step.start c10s3 ⟨3, 1, "X"⟩ [] c10rec2
      (by decide) (by decide) (by decide) (by decide))
  · decide
  · decide

/-- C10 witness: resubmitting id "X" into a one-task registry. -/
theorem c10_duplicate_submit_witness :
    aget (submitStep (submitStep (initState 1) "X" 3 none 3) "X" 4 none 2).info "X"
      = some (mkInfo "X" 4 1 none 2) ∧
    (submitStep (submitStep (initState 1) "X" 3 none 3) "X" 4 none 2).queue
      = (submitStep (initState 1) "X" 3 none 3).queue ++ [⟨4, 1, "X"⟩] ∧
    ((submitStep (submitStep (initState 1) "X" 3 none 3) "X" 4 none 2).queue.filter
        (fun e => e.task_id == "X")).length
      = ((submitStep (initState 1) "X" 3 none 3).queue.filter
        (fun e => e.task_id == "X")).length + 1 ∧
    (akeys (submitStep (submitStep (initState 1) "X" 3 none 3) "X" 4 none 2).info).count "X" = 1 ∧
    (∀ qsize maxsize : Nat, ¬(0 < maxsize ∧ maxsize ≤ qsize) →
      submitOutcome qsize maxsize "X" = SubmitRes.ok "X") ∧
    (Reach 2 c10s4 ∧ c10s4.started.count "X" = 2 ∧ c10s4.info.length = 1) :=
  c10_duplicate_submit (submitStep (initState 1) "X" 3 none 3) "X" 4 none 2
    (mkInfo "X" 3 0 none 3) (by decide) (by decide)

theorem execIds_erase_subset {l : List Exec} {ex : Exec} {k : String}
    (h : k ∈ execIds (l.erase ex)) : k ∈ execIds l := by
  obtain ⟨y, hy, hyk⟩ := List.mem_map.1 h
  exact List.mem_map.2 ⟨y, (List.erase_sublist ex l).mem hy, hyk⟩

/-- One-step preservation of "cancelled while queued, never executed": if the
record for `id` is marked Cancelled in the active registry, no execution of
`id` is in flight, and its body has never started, then any step — in a run
that never reuses task ids — keeps all three facts. -/
theorem cancelled_pending_step {mc : Nat} {s t : MState} {id : String}
    (hreach : Reach mc s) (hstep : Step s t) (hdup : t.dup = false)
    (h1 : statusOf s id = some MStatus.cancelled)
    (h2 : id ∉ execIds s.running) (h3 : s.started.count id = 0) :
    statusOf t id = some MStatus.cancelled ∧ id ∉ execIds t.running
      ∧ t.started.count id = 0 := by
  have inv := inv_reach hreach
  obtain ⟨ti, hget, hst⟩ : ∃ ti, aget s.info id = some ti ∧ ti.status = MStatus.cancelled := by
    rw [statusOf] at h1
    cases hg : aget s.info id with
    | none => rw [hg] at h1; simp at h1
    | some ti0 =>
      rw [hg] at h1
      simp at h1
      exact ⟨ti0, rfl, h1⟩
  cases hstep with
  | submit id2 prio tmo mr =>
    have hne : id2 ≠ id := by
      intro he
      subst he
      have hcr : id2 ∈ s.created := inv.info_created _ (mem_akeys_of_aget hget)
      have hdt : (submitStep s id2 prio tmo mr).dup = true := by
        simp [submitStep, hcr]
      rw [hdt] at hdup
      exact absurd hdup (by simp)
    refine ⟨?_, h2, h3⟩
    rw [statusOf]
    simp only [submitStep]
    rw [aget_aset_ne s.info id2 id _ (fun hh => hne hh.symm), hget]
    simp [hst]
  | skipCancelled e q' ti2 hpop hperm hget2 hst2 => exact ⟨h1, h2, h3⟩
  | skipDead e q' hpop hperm hget2 => exact ⟨h1, h2, h3⟩
  | start e q' ti2 hpop hperm hget2 hne2 =>
    have hne : e.task_id ≠ id := by
      intro he
      rw [he, hget] at hget2
      have : ti2 = ti := (Option.some.inj hget2).symm
      rw [this] at hne2
      exact hne2 hst
    refine ⟨?_, ?_, ?_⟩
    · rw [statusOf]
      simp only [startStep]
      rw [aget_aset_ne s.info e.task_id id _ (fun hh => hne hh.symm), hget]
      simp [hst]
    · show id ∉ execIds (s.running ++ [⟨s.nextEid, e.task_id⟩])
      simp only [execIds, List.map_append, List.mem_append] at h2 ⊢
      rintro (hmem | hmem)
      · exact h2 (by simpa [execIds] using hmem)
      · simp only [List.map_cons, List.map_nil, List.mem_singleton] at hmem
        exact hne hmem.symm
    · show (s.started ++ [e.task_id]).count id = 0
      rw [List.count_append, h3]
      have hz : ([e.task_id].count id) = 0 := by
        rw [List.count_eq_zero]
        simp only [List.mem_singleton]
        exact fun hh => hne hh.symm
      omega
  | finishOk ex ti2 v hex hget2 =>
    have hne : ex.task_id ≠ id := fun he => h2 (he ▸ List.mem_map_of_mem Exec.task_id hex)
    refine ⟨?_, fun hmem => h2 (execIds_erase_subset hmem), h3⟩
    rw [statusOf]
    simp only [finishOkStep, moveState]
    rw [aget_aerase_ne s.info ex.task_id id (fun hh => hne hh.symm) inv.nodup_info, hget]
    simp [hst]
  | finishCancelled ex ti2 hex hget2 =>
    have hne : ex.task_id ≠ id := fun he => h2 (he ▸ List.mem_map_of_mem Exec.task_id hex)
    refine ⟨?_, fun hmem => h2 (execIds_erase_subset hmem), h3⟩
    rw [statusOf]
    simp only [finishCancelledStep, moveState]
    rw [aget_aerase_ne s.info ex.task_id id (fun hh => hne hh.symm) inv.nodup_info, hget]
    simp [hst]
  | finishTimeout ex ti2 t2 hex hget2 htmo htz =>
    have hne : ex.task_id ≠ id := fun he => h2 (he ▸ List.mem_map_of_mem Exec.task_id hex)
    refine ⟨?_, fun hmem => h2 (execIds_erase_subset hmem), h3⟩
    rw [statusOf]
    simp only [finishTimeoutStep, moveState]
    rw [aget_aerase_ne s.info ex.task_id id (fun hh => hne hh.symm) inv.nodup_info, hget]
    simp [hst]
  | finishExcRetry ex ti2 msg hex hget2 hrc =>
    have hne : ex.task_id ≠ id := fun he => h2 (he ▸ List.mem_map_of_mem Exec.task_id hex)
    refine ⟨?_, fun hmem => h2 (execIds_erase_subset hmem), h3⟩
    rw [statusOf]
    simp only [finishExcRetryStep]
    rw [aget_aset_ne s.info ex.task_id id _ (fun hh => hne hh.symm), hget]
    simp [hst]
  | finishExcFail ex ti2 msg hex hget2 hrc =>
    have hne : ex.task_id ≠ id := fun he => h2 (he ▸ List.mem_map_of_mem Exec.task_id hex)
    refine ⟨?_, fun hmem => h2 (execIds_erase_subset hmem), h3⟩
    rw [statusOf]
    simp only [finishExcFailStep, moveState]
    rw [aget_aerase_ne s.info ex.task_id id (fun hh => hne hh.symm) inv.nodup_info, hget]
    simp [hst]
  | finishDead ex hex hget2 =>
    exact ⟨h1, fun hmem => h2 (execIds_erase_subset hmem), h3⟩
  | cancel id2 ti2 hget2 =>
    by_cases he : id2 = id
    · subst he
      refine ⟨?_, h2, h3⟩
      rw [statusOf]
      simp only [cancelStep]
      rw [aget_aset_self]
      simp [cancelMark]
    · refine ⟨?_, h2, h3⟩
      rw [statusOf]
      simp only [cancelStep]
      rw [aget_aset_ne s.info id2 id _ (fun hh => he hh.symm), hget]
      simp [hst]

/-- Multi-step version of `cancelled_pending_step` along any id-unique run. -/
theorem cancelled_pending_reachFrom {mc : Nat} {s0 s1 : MState} {id : String}
    (h0 : Reach mc s0) (hr : ReachFrom s0 s1) (hdup : s1.dup = false)
    (h1 : statusOf s0 id = some MStatus.cancelled)
    (h2 : id ∉ execIds s0.running) (h3 : s0.started.count id = 0) :
    statusOf s1 id = some MStatus.cancelled ∧ id ∉ execIds s1.running
      ∧ s1.started.count id = 0 := by
  revert hdup
  induction hr with
  | refl => intro _; exact ⟨h1, h2, h3⟩
  | step hr2 hst ih =>
    intro hdup
    have hmid := ih (dup_false_of_step hst hdup)
    exact cancelled_pending_step (reach_of_reachFrom h0 hr2) hst hdup
      hmid.1 hmid.2.1 hmid.2.2

/-- C5 (confirmed).  A task cancelled while still Pending (marked Cancelled in
the active registry, no execution in flight, body never started) never has its
body executed in any continuation of the run that does not reuse its id; the
skip branch of the dispatch loop consumes the queue entry while leaving the
permit count, the registries and the execution history untouched; and a step
that *does* start a task body can only happen when the dequeued record's status
is not Cancelled. -/
theorem c5_queued_cancellation (mc : Nat) (s0 s1 : MState) (id : String)
    (h0 : Reach mc s0) (hr : ReachFrom s0 s1) (hdup : s1.dup = false)
    (hc : statusOf s0 id = some MStatus.cancelled)
    (hnr : id ∉ execIds s0.running) (hns : s0.started.count id = 0) :
    s1.started.count id = 0 ∧
    (∀ (s : MState) (q' : List QEntry),
      (skipStep s q').started = s.started ∧ (skipStep s q').permits = s.permits ∧
      (skipStep s q').running = s.running ∧ (skipStep s q').info = s.info) ∧
    (∀ (s t : MState) (id2 : String), Step s t → t.started = s.started ++ [id2] →
      ∃ ti, aget s.info id2 = some ti ∧ ti.status ≠ MStatus.cancelled) := by
  refine ⟨(cancelled_pending_reachFrom h0 hr hdup hc hnr hns).2.2,
    fun s q' => ⟨rfl, rfl, rfl, rfl⟩, ?_⟩
  intro s t id2 hstep hstarted
  cases hstep with
  | submit id3 prio tmo mr =>
    exfalso
    have hlen := congrArg List.length hstarted
    simp only [submitStep, List.length_append, List.length_cons, List.length_nil] at hlen
    omega
  | skipCancelled e q' ti hpop hperm hget hst =>
    exfalso
    have hlen := congrArg List.length hstarted
    simp only [skipStep, List.length_append, List.length_cons, List.length_nil] at hlen
    omega
  | skipDead e q' hpop hperm hget =>
    exfalso
    have hlen := congrArg List.length hstarted
    simp only [skipStep, List.length_append, List.length_cons, List.length_nil] at hlen
    omega
  | start e q' ti hpop hperm hget hne =>
    have heq : e.task_id = id2 := by
      have hh : s.started ++ [e.task_id] = s.started ++ [id2] := hstarted
      have := List.append_cancel_left hh
      simpa using this
    exact ⟨ti, heq ▸ hget, hne⟩
  | finishOk ex ti v hex hget =>
    exfalso
    have hlen := congrArg List.length hstarted
    simp only [finishOkStep, moveState, List.length_append, List.length_cons,
      List.length_nil] at hlen
    omega
  | finishCancelled ex ti hex hget =>
    exfalso
    have hlen := congrArg List.length hstarted
    simp only [finishCancelledStep, moveState, List.length_append, List.length_cons,
      List.length_nil] at hlen
    omega
  | finishTimeout ex ti t2 hex hget htmo htz =>
    exfalso
    have hlen := congrArg List.length hstarted
    simp only [finishTimeoutStep, moveState, List.length_append, List.length_cons,
      List.length_nil] at hlen
    omega
  | finishExcRetry ex ti msg hex hget hrc =>
    exfalso
    have hlen := congrArg List.length hstarted
    simp only [finishExcRetryStep, List.length_append, List.length_cons,
      List.length_nil] at hlen
    omega
  | finishExcFail ex ti msg hex hget hrc =>
    exfalso
    have hlen := congrArg List.length hstarted
    simp only [finishExcFailStep, moveState, List.length_append, List.length_cons,
      List.length_nil] at hlen
    omega
  | finishDead ex hex hget =>
    exfalso
    have hlen := congrArg List.length hstarted
    simp only [finishDeadStep, List.length_append, List.length_cons, List.length_nil] at hlen
    omega
  | cancel id3 ti hget =>
    exfalso
    have hlen := congrArg List.length hstarted
    simp only [cancelStep, List.length_append, List.length_cons, List.length_nil] at hlen
    omega

/-- Trace for the C5 witness: submit "t1", cancel it while Pending, then let
the worker dequeue it (the skip branch fires). -/
def c5s0 : MState :=
  cancelStep (submitStep (initState 1) "t1" 3 none 3) "t1" (mkInfo "t1" 3 0 none 3)

def c5s1 : MState := skipStep c5s0 []

/-- C5 witness: on the concrete cancelled-while-queued trace the body never
starts. -/
theorem c5_queued_cancellation_witness :
    c5s1.started.count "t1" = 0 ∧
    (∀ (s : MState) (q' : List QEntry),
      (skipStep s q').started = s.started ∧ (skipStep s q').permits = s.permits ∧
      (skipStep s q').running = s.running ∧ (skipStep s q').info = s.info) ∧
    (∀ (s t : MState) (id2 : String), Step s t → t.started = s.started ++ [id2] →
      ∃ ti, aget s.info id2 = some ti ∧ ti.status ≠ MStatus.cancelled) := by
  refine c5_queued_cancellation 1 c5s0 c5s1 "t1" ?_ ?_ (by decide) (by decide) (by decide)
    (by decide)
  · exact Reach.step (Reach.step Reach.init (Step.submit (initState 1) "t1" 3 none 3))
      (Step.cancel (submitStep (initState 1) "t1" 3 none 3) "t1" (mkInfo "t1" 3 0 none 3)
        (by decide))
  · exact ReachFrom.step (ReachFrom.refl c5s0)
      (Step.skipCancelled c5s0 ⟨3, 0, "t1"⟩ [] (cancelMark (mkInfo "t1" 3 0 none 3) 1)
        (by decide) (by decide) (by decide) (by decide))

/-- C8 (amended).  After `j` quiet poll iterations (record present and
non-terminal, positive caller timeout not yet elapsed, no cancellation), the
wait behaves as specified at iteration `j`:
* if the record is terminal it is returned;
* if a *positive* caller timeout `t` has just elapsed (`j = t + 1`) while the
  record is non-terminal, the wait fails with a Timeout condition;
* if the wait itself is cancelled during the sleep while the record is still
  non-terminal, the freshly re-fetched record is marked Cancelled and returned
  rather than the outcome being lost. -/
theorem c8_wait_for_amended (snap : Nat → Option MTaskInfo) (tmo cancelAt : Option Nat)
    (j fuel : Nat)
    (hquiet : ∀ i, i < j →
      (∃ ti, snap i = some ti ∧ ti.status.isTerminal = false) ∧
      ¬(tmoTruthy tmo = true ∧ i > tmo.getD 0) ∧ cancelAt ≠ some i)
    (hfuel : j < fuel) :
    (∀ ti, snap j = some ti → ti.status.isTerminal = true →
      waitForTask snap tmo cancelAt fuel 0 = WaitRes.ret ti) ∧
    (∀ t ti, tmo = some t → 0 < t → j = t + 1 → snap j = some ti →
      ti.status.isTerminal = false →
      waitForTask snap tmo cancelAt fuel 0 = WaitRes.timeoutFailure) ∧
    (∀ ti fti, cancelAt = some j → snap j = some ti → ti.status.isTerminal = false →
      ¬(tmoTruthy tmo = true ∧ j > tmo.getD 0) → snap (j + 1) = some fti →
      fti.status.isTerminal = false →
      waitForTask snap tmo cancelAt fuel 0 = WaitRes.ret (cancelMark fti (j + 1)) ∧
      (cancelMark fti (j + 1)).status = MStatus.cancelled) := by
  obtain ⟨f, hf⟩ : ∃ f, fuel - j = f + 1 := ⟨fuel - j - 1, by omega⟩
  have hrun : waitForTask snap tmo cancelAt fuel 0 = waitForTask snap tmo cancelAt (fuel - j) j := by
    have h0 := @waitForTask_run snap tmo cancelAt
      j 0 (fuel - j) (by intro i hi1 hi2; exact hquiet i (by omega))
    calc waitForTask snap tmo cancelAt fuel 0
        = waitForTask snap tmo cancelAt (j + (fuel - j)) 0 := by congr 1; omega
      _ = waitForTask snap tmo cancelAt (fuel - j) (0 + j) := h0
      _ = waitForTask snap tmo cancelAt (fuel - j) j := by rw [Nat.zero_add]
  refine ⟨?_, ?_, ?_⟩
  · intro ti hsnap hterm
    rw [hrun, hf, waitForTask, hsnap]
    dsimp only
    rw [if_pos hterm]
  · intro t ti htmo htpos hj hsnap hterm
    rw [hrun, hf, waitForTask, hsnap]
    dsimp only
    rw [if_neg (by simp [hterm]), if_pos ?_]
    subst htmo
    subst hj
    refine ⟨?_, by simp⟩
    simp [tmoTruthy]
    omega
  · intro ti fti hca hsnap hterm htrip hsnap2 hterm2
    rw [hrun, hf, waitForTask, hsnap]
    dsimp only
    rw [if_neg (by simp [hterm]), if_neg htrip, if_pos hca, hsnap2]
    dsimp only
    rw [if_neg (by simp [hterm2])]
    exact ⟨rfl, rfl⟩

/-- Snapshots for the C8 witness: the record is Pending for polls 0-1 and
Completed from poll 2 on. -/
def c8pend : MTaskInfo := mkInfo "w" 3 0 none 3

def c8done : MTaskInfo := { c8pend with status := .completed, result := some 5 }

def c8snap : Nat → Option MTaskInfo := fun i => if i < 2 then some c8pend else some c8done

/-- C8 witness: the amended behaviour at `j = 2` quiet polls, no caller
timeout, no cancellation. -/
theorem c8_wait_for_amended_witness :
    (∀ ti, c8snap 2 = some ti → ti.status.isTerminal = true →
      waitForTask c8snap none none 5 0 = WaitRes.ret ti) ∧
    (∀ t ti, (none : Option Nat) = some t → 0 < t → 2 = t + 1 → c8snap 2 = some ti →
      ti.status.isTerminal = false →
      waitForTask c8snap none none 5 0 = WaitRes.timeoutFailure) ∧
    (∀ ti fti, (none : Option Nat) = some 2 → c8snap 2 = some ti →
      ti.status.isTerminal = false →
      ¬(tmoTruthy none = true ∧ 2 > (none : Option Nat).getD 0) → c8snap 3 = some fti →
      fti.status.isTerminal = false →
      waitForTask c8snap none none 5 0 = WaitRes.ret (cancelMark fti 3) ∧
      (cancelMark fti 3).status = MStatus.cancelled) := by
  refine c8_wait_for_amended c8snap none none 2 5 ?_ (by omega)
  intro i hi
  have hi2 : i = 0 ∨ i = 1 := by omega
  refine ⟨⟨c8pend, ?_, rfl⟩, by simp [tmoTruthy], by simp⟩
  rcases hi2 with h | h <;> subst h <;> rfl

/-- A wait configuration that never leaves the polling loop, however much fuel
(poll iterations) it is given. -/
def neverLeavesPolling (snap : Nat → Option MTaskInfo) (tmo cancelAt : Option Nat) : Prop :=
  ∀ fuel k, waitForTask snap tmo cancelAt fuel k = WaitRes.polling

/-- C8 counterexample: a caller wait timeout of `0` elapses immediately, yet
`wait_for_task` over a forever-Pending record never fails with the Timeout
condition — `if timeout and ...` treats `0` as "no timeout" and the loop spins
forever.  With a positive timeout of 3 ticks the same wait does fail. -/
theorem c8_counterexample :
    neverLeavesPolling (fun _ => some c8pend) (some 0) none ∧
    waitForTask (fun _ => some c8pend) (some 3) none 50 0 = WaitRes.timeoutFailure := by
  constructor
  · intro fuel
    induction fuel with
    | zero => intro k; rfl
    | succ fuel ih =>
      intro k
      rw [waitForTask]
      dsimp only
      rw [if_neg (by simp [c8pend, mkInfo, MStatus.isTerminal])]
      rw [if_neg (by simp [tmoTruthy])]
      rw [if_neg (by simp)]
      exact ih (k + 1)
  · decide

end AsyncTaskMgr
